import Mathlib

/-!
# Role-normalization engine: a shallow embedding

This file embeds the normalization-and-match engine of the repository
(`role_normalization/api/models/role_normalizer.py`, `role_matcher.py`,
`aho_corasick_matcher.py`, `w2v_matcher.py`, and `settings.py`) in Lean 4 and
settles the frozen claims about it.

Python strings are modelled as Lean `String` (a wrapped `List Char`), with the
handful of `str` methods the source uses re-implemented on `List Char` so that
every definition is executable.  Data that ships with the engine but is not
part of the source tree (gazetteer text files, the spell dictionary, the word
embeddings) is a parameter of the model (`NormEnv`, `W2vEnv`); the code that
consumes that data is translated from the source.
-/

set_option maxRecDepth 100000

namespace RoleNorm

/-- Whitespace characters recognised by Python's `str.split()` / `str.strip()`
(the ones that can actually occur here; Python also counts some unicode
spaces). -/
def wsChars : List Char := [' ', '\t', '\n', '\r', '\x0b', '\x0c']

def isWs (c : Char) : Bool := wsChars.contains c

/-- `str.split()` with no separator: split on runs of whitespace, no empty
pieces.  `acc` holds the (reversed) current token. -/
def splitWsAux : List Char → List Char → List (List Char)
  | [], acc => if acc.isEmpty then [] else [acc.reverse]
  | c :: cs, acc =>
    if isWs c then
      if acc.isEmpty then splitWsAux cs [] else acc.reverse :: splitWsAux cs []
    else splitWsAux cs (c :: acc)

def pySplit (l : List Char) : List (List Char) := splitWsAux l []

def pySplitS (s : String) : List String := (pySplit s.data).map (fun t => ⟨t⟩)

/-- `str.replace(pat, rep)`: replace non-overlapping occurrences left to
right, here with structural recursion on a fuel that bounds the number of
scan steps (each step consumes at least one input character, so
`fuel = l.length` is always enough).  Python's behaviour for an empty pattern
is not needed here: all patterns used by the source are non-empty. -/
def replaceFuel (pat rep : List Char) : Nat → List Char → List Char
  | _, [] => []
  | 0, l => l
  | fuel + 1, c :: cs =>
    if pat ≠ [] ∧ pat.isPrefixOf (c :: cs) then
      -- consume the match: `(c :: cs).drop pat.length = cs.drop (pat.length - 1)`
      rep ++ replaceFuel pat rep fuel (cs.drop (pat.length - 1))
    else
      c :: replaceFuel pat rep fuel cs

def replaceL (pat rep l : List Char) : List Char := replaceFuel pat rep l.length l

def pyReplace (s pat rep : String) : String := ⟨replaceL pat.data rep.data s.data⟩

/-- `re.sub(" +", " ", s)`: collapse runs of space characters to one space. -/
def collapseSp : List Char → List Char
  | [] => []
  | [c] => [c]
  | a :: b :: cs =>
    if a = ' ' ∧ b = ' ' then collapseSp (b :: cs) else a :: collapseSp (b :: cs)

def collapseSpS (s : String) : String := ⟨collapseSp s.data⟩

/-- `str.strip()`. -/
def stripL (l : List Char) : List Char :=
  ((l.dropWhile isWs).reverse.dropWhile isWs).reverse

def pyStrip (s : String) : String := ⟨stripL s.data⟩

/-- `' '.join(tokens)` on lists of characters. -/
def joinL : List (List Char) → List Char
  | [] => []
  | [t] => t
  | t :: ts => t ++ ' ' :: joinL ts

/-- `' '.join(tokens)`. -/
def pyJoin (ts : List String) : String := ⟨joinL (ts.map String.data)⟩

/-- Python `str.lower()` on the characters that occur in this system: ASCII
letters plus the Latin-1 letters of the gazetteers. Other characters are left
unchanged. -/
def lowerChar (c : Char) : Char :=
  if 65 ≤ c.toNat ∧ c.toNat ≤ 90 then Char.ofNat (c.toNat + 32)
  else if c.toNat < 128 then c
  else if c = 'Á' then 'á' else if c = 'À' then 'à' else if c = 'Â' then 'â'
  else if c = 'Ã' then 'ã' else if c = 'Ä' then 'ä' else if c = 'É' then 'é'
  else if c = 'È' then 'è' else if c = 'Ê' then 'ê' else if c = 'Ë' then 'ë'
  else if c = 'Í' then 'í' else if c = 'Ì' then 'ì' else if c = 'Î' then 'î'
  else if c = 'Ï' then 'ï' else if c = 'Ó' then 'ó' else if c = 'Ò' then 'ò'
  else if c = 'Ô' then 'ô' else if c = 'Õ' then 'õ' else if c = 'Ö' then 'ö'
  else if c = 'Ú' then 'ú' else if c = 'Ù' then 'ù' else if c = 'Û' then 'û'
  else if c = 'Ü' then 'ü' else if c = 'Ç' then 'ç' else if c = 'Ñ' then 'ñ'
  else c

def pyLower (s : String) : String := ⟨s.data.map lowerChar⟩

/-- `unicodedata.normalize('NFKD', s).encode("ASCII", "ignore")` followed by a
UTF-8 decode (`RoleNormalizer._fix_encoding`), character by character: ASCII
characters are kept, accented Latin-1 letters decompose to their base letter
(the combining mark is dropped by the ASCII encode), any other non-ASCII
character has no ASCII decomposition relevant here and is dropped. -/
def foldChar (c : Char) : List Char :=
  if c.toNat < 128 then [c]
  else if c = 'á' ∨ c = 'à' ∨ c = 'â' ∨ c = 'ã' ∨ c = 'ä' then ['a']
  else if c = 'é' ∨ c = 'è' ∨ c = 'ê' ∨ c = 'ë' then ['e']
  else if c = 'í' ∨ c = 'ì' ∨ c = 'î' ∨ c = 'ï' then ['i']
  else if c = 'ó' ∨ c = 'ò' ∨ c = 'ô' ∨ c = 'õ' ∨ c = 'ö' then ['o']
  else if c = 'ú' ∨ c = 'ù' ∨ c = 'û' ∨ c = 'ü' then ['u']
  else if c = 'ç' then ['c'] else if c = 'ñ' then ['n']
  else []

def asciiFoldS (s : String) : String := ⟨s.data.flatMap foldChar⟩

/-- First-match lookup in an association list (models `dict.get` for the
dictionaries built in the source, whose keys are unique by construction). -/
def alistGet {α β : Type} [DecidableEq α] (m : List (α × β)) (k : α) : Option β :=
  (m.find? (fun kv => kv.1 = k)).map (·.2)

/-- Keep the first occurrence of each element (models the `OrderedDict`
de-duplication idiom and, where noted, the contents of a Python `set`). -/
def dedupFirstAux {α : Type} [DecidableEq α] : List α → List α → List α
  | [], _ => []
  | a :: as, seen =>
    if a ∈ seen then dedupFirstAux as seen else a :: dedupFirstAux as (a :: seen)

def dedupFirst {α : Type} [DecidableEq α] (l : List α) : List α := dedupFirstAux l []

/-- Python truthiness for the values `role_normalizer.normalize` can receive:
a string, or some non-string value (the batch routines pass database cells,
which may be `None` or numbers). -/
inductive PyVal : Type
  | str (s : String)
  | intv (n : Int)
  | pynone
deriving DecidableEq

namespace RoleNormalizer

/-! ## `RoleNormalizer` (role_normalizer.py)

Class attributes that are literal constants in the source are literal here.
Data loaded from gazetteer files, the spell checker and the dictionary are
parameters (`NormEnv`): the gazetteer text files are not part of the source
tree, and each compiled `(pattern, replacement)` pair is modelled as the
string rewriting function it denotes. -/

def space_characters : List String := [":", ",", ";", ".", "-", "–", "\t", "\\t"]

def special_characters : List Char :=
  ['\\', '(', ')', '[', ']', '\x7b', '\x7d', '&', '#', '*', '+', '<', '>',
   '\'', '"', '/', '?', '!', '|', '^', '~', '@', '$', '%', '=', '\x60', '´', '¨', '_']

def line_break_characters : List String := ["\r", "\n", "\\r", "\\n"]

def stop_words_to_keep : List String := ["sem"]

def additional_stop_words : List String := ["in", "of", "on"]

def seniorities : List String :=
  ["trainee", "junior", "pleno", "senior", "plena", "jr", "pl", "sr"]

def hierarchies : List String :=
  ["lider", "chefe", "gerente", "supervisor", "coordenador", "supervisora", "coordenadora"]

/-- The false-plural tokens that `_load_plural_mapping` tags with a `--`
suffix before the suffix rewrites run (the regex `^(empregada|...)$`). -/
def plural_skip_tokens : List String :=
  ["empregada", "ingles", "frances", "leis", "americanas", "fisica", "fisicas",
   "educacaofisica", "educadorafisica", "instrutorafisica", "fabrica", "fabricas",
   "bebida", "bebidas", "vida", "vidas"]

/-- Engine data loaded at initialization from gazetteer files and corpora
(not in the source tree).  Ordered rewrite tables are lists of the string
functions their compiled regexes denote. -/
structure NormEnv : Type where
  fileStopwords : List String
  special_character_regexes : List (String → String)
  thesaurus_regexes : List (String → String)
  gender_regexes : List (String → String)
  conjugation_mapping : List (String × String)
  /-- `(suffix, replacement)` pairs from `mapping_plural.txt`; rule
  `(\D+)(suffix)$ → \1replacement`. -/
  plural_suffix_rules : List (String × String)
  sorted_locations : List String
  dictionary : List String
  /-- `SymSpell.lookup(word, TOP, max_edit_distance=2)`: best suggestion. -/
  spell_lookup : String → Option String
  /-- `nltk.stem.RSLPStemmer().stem`. -/
  stem : String → String

/-- `self.stopwords = self.stopwords - self.stop_words_to_keep | self.additional_stop_words`
(membership is what matters; we keep a list). -/
def stopwords (env : NormEnv) : List String :=
  env.fileStopwords.filter (fun w => !stop_words_to_keep.contains w) ++ additional_stop_words

/-- Options of `RoleNormalizer.normalize`, with the source's defaults. -/
structure NormOpts : Type where
  correct_typos : Bool := true
  stemming : Bool := false
  remove_locations : Bool := false
  normalize_conjugation : Bool := true
  normalize_plural : Bool := true
  normalize_gender : Bool := true
  normalize_thesaurus : Bool := true
  normalize_special_character_terms : Bool := true
deriving DecidableEq

/-- `_transform_text`: sequentially `str.replace` each symbol. -/
def transform_text (text : String) (symbols : List String) (rep : String) : String :=
  symbols.foldl (fun acc p => pyReplace acc p rep) text

/-- `_normalize_by_mapping`: strip, apply each compiled rewrite in order, strip. -/
def normalize_by_mapping (s : String) (processed_mapping : List (String → String)) : String :=
  pyStrip (processed_mapping.foldl (fun acc f => f acc) (pyStrip s))

/-- `_normalize_by_replace`: token-wise replacement through a mapping, tokens
re-joined with single spaces. -/
def normalize_by_replace (s : String) (mapping : List (String × String)) : String :=
  pyStrip (pyJoin ((pySplitS (pyStrip s)).map (fun w => (alistGet mapping w).getD w)))

/-- One plural suffix rule `(\D+)(suffix)$ → \1replacement` applied to a
single token: it fires iff the token ends with `suffix` preceded by at least
one character, the character just before the suffix being a non-digit (the
leftmost-match `\D+` group then covers the maximal non-digit run, which the
replacement `\1` writes back unchanged). -/
def plural_suffix_rule (suf rep tok : String) : String :=
  if suf.data.isSuffixOf tok.data
      ∧ suf.length < tok.length
      ∧ (tok.data[tok.length - suf.length - 1]?.any (fun c => !c.isDigit))
  then ⟨tok.data.take (tok.length - suf.length) ++ rep.data⟩
  else tok

/-- The full plural pipeline of `_load_plural_mapping`: tag false plurals
with `--`, apply the file's suffix rules in order, strip the `--` tag. -/
def plural_regexes (env : NormEnv) : List (String → String) :=
  [fun tok => if plural_skip_tokens.contains tok then tok ++ "--" else tok]
  ++ env.plural_suffix_rules.map (fun sr => plural_suffix_rule sr.1 sr.2)
  ++ [fun tok => pyReplace tok "--" ""]

/-- `_correct_typos`: per token, keep dictionary words, otherwise take the top
spell suggestion if any; note the source returns the text with a trailing
space after every token, including the last. -/
def correct_typos_text (env : NormEnv) (text : String) : String :=
  (pySplitS text).foldl
    (fun acc w =>
      acc ++ (if env.dictionary.contains w then w
              else (env.spell_lookup w).getD w) ++ " ")
    ""

/-- `_in_sorted_list`: binary search over the sorted location list; on the
sorted lists built at initialization this decides membership. -/
def in_sorted_list (tok : String) (sorted_list : List String) : Bool :=
  sorted_list.contains tok

/-- Steps 1-8 of `RoleNormalizer.normalize` on a non-empty string: lower-case,
line-break removal, special-character-term rewrite, separator replacement and
space collapsing, special-symbol removal, optional typo correction, stopword
removal, accent folding.  This is the token stream from which seniorities and
hierarchies are extracted. -/
def accent_stage (env : NormEnv) (opts : NormOpts) (s : String) : String :=
  let t1 := pyLower s
  let t2 := transform_text t1 line_break_characters " "
  let t3 := if opts.normalize_special_character_terms
            then normalize_by_mapping t2 env.special_character_regexes else t2
  let t4 := transform_text t3 space_characters " "
  let t5 := collapseSpS t4
  let t6 := pyStrip t5
  let t7 := transform_text t6 (special_characters.map String.singleton) ""
  let t8 := if opts.correct_typos then correct_typos_text env t7 else t7
  let t9 := pyJoin ((pySplitS t8).filter (fun tok => !(stopwords env).contains tok))
  asciiFoldS t9

/-- Steps 9-16 of `RoleNormalizer.normalize`, applied to the accent-folded
text. -/
def tail_stage (env : NormEnv) (opts : NormOpts) (t10 : String) : String :=
  let t11 := if opts.remove_locations
             then pyJoin ((pySplitS t10).filter (fun tok => !in_sorted_list tok env.sorted_locations))
             else t10
  let t12 := if opts.normalize_conjugation
             then normalize_by_replace t11 env.conjugation_mapping else t11
  let t13 := if opts.normalize_plural
             then pyStrip (pyJoin ((pySplitS t12).map (fun tok => normalize_by_mapping tok (plural_regexes env))))
             else t12
  let t14 := if opts.normalize_gender then normalize_by_mapping t13 env.gender_regexes else t13
  let t15 := if opts.normalize_thesaurus then normalize_by_mapping t14 env.thesaurus_regexes else t14
  if opts.stemming then pyStrip (pyJoin ((pySplitS t15).map env.stem)) else t15

/-- `RoleNormalizer.normalize`: returns the normalized title and the
extracted seniority and hierarchy tokens.  Empty or non-string input returns
`("", [], [])`. -/
def normalize (env : NormEnv) (opts : NormOpts) (role_title : PyVal) :
    String × List String × List String :=
  match role_title with
  | .str s =>
    if s = "" then ("", [], [])
    else
      let t10 := accent_stage env opts s
      let sens := (pySplitS t10).filter (fun tok => seniorities.contains tok)
      let hiers := (pySplitS t10).filter (fun tok => hierarchies.contains tok)
      (tail_stage env opts t10, sens, hiers)
  | _ => ("", [], [])

/-- The text of step 8 (accent folding) as a function of the raw input,
including the invalid-input guard; the reference point of the
seniority/hierarchy extraction. -/
def step8_text (env : NormEnv) (opts : NormOpts) : PyVal → String
  | .str s => if s = "" then "" else accent_stage env opts s
  | _ => ""

end RoleNormalizer

/-! ## `ProcessedRole` and `RoleMatcher` (role_matcher.py) -/

/-- A processed database role. -/
structure ProcessedRole : Type where
  role_id : Int
  title : String
  processed_title : String
  seniorities : List String
  hierarchies : List String
  areap_ids : List Int
  nivelh_ids : List Int
  perfil_ids : List Int
deriving DecidableEq

/-- One entry of `ProcessedRole.profile_id_mapping` (from
`mapping_perfil_id.json`). -/
structure IdMapEntry : Type where
  areap_ids : List Int
  nivelh_ids : List Int
  perfil_ids : List Int
deriving DecidableEq

/-- `profile_id_mapping` / `role_id_mapping`: JSON objects keyed by int. -/
abbrev IdMapping : Type := List (Int × IdMapEntry)

/-- The normalized-title dictionaries (`norm_main_roles_mapping`,
`norm_similar_roles_mapping`): insertion-ordered maps with unique keys,
modelled as association lists. -/
abbrev RoleMap : Type := List (String × ProcessedRole)

def dictGetRole (m : RoleMap) (k : String) : Option ProcessedRole :=
  alistGet m k

namespace ProcessedRole

/-- The union, over the filter's profile ids, of the mapped id list selected
by `id_type` — the list `_filter_ids` accumulates in `filtered_ids` (a missing
profile id, or one mapped to an empty list, contributes nothing, exactly like
the source's truthiness guards). -/
def filtered_ids_union (pm : IdMapping) (perfil_ids_filter : List Int)
    (sel : IdMapEntry → List Int) : List Int :=
  perfil_ids_filter.flatMap (fun pid => ((alistGet pm pid).map sel).getD [])

/-- `list(set.intersection(set(ids), set(filtered_ids)))`.  The value is the
set of common elements; Python materializes it in an unspecified set-iteration
order, which nothing downstream depends on — we fix the order of first
occurrence in `ids`. -/
def pySetInter (ids other : List Int) : List Int :=
  (dedupFirst ids).filter (fun x => other.contains x)

/-- `ProcessedRole._filter_ids`. -/
def filter_ids (pm : IdMapping) (ids : List Int) (perfil_ids_filter : List Int)
    (sel : IdMapEntry → List Int) : List Int :=
  if perfil_ids_filter ≠ [] then
    pySetInter ids (filtered_ids_union pm perfil_ids_filter sel)
  else ids

/-- `ProcessedRole.filter_by_perfil_ids`. -/
def filter_by_perfil_ids (pm : IdMapping) (r : ProcessedRole)
    (perfil_ids_filter : List Int) : ProcessedRole :=
  { r with
    areap_ids := filter_ids pm r.areap_ids perfil_ids_filter (·.areap_ids)
    nivelh_ids := filter_ids pm r.nivelh_ids perfil_ids_filter (·.nivelh_ids)
    perfil_ids := filter_ids pm r.perfil_ids perfil_ids_filter (·.perfil_ids) }

end ProcessedRole

namespace RoleMatcher

open RoleNormalizer

/-- `bool(set.intersection(set(a), set(b)))`. -/
def set_inter_nonempty (a b : List Int) : Bool := a.any (fun x => b.contains x)

/-- `self.norm_main_roles_mapping.get(t) or self.norm_similar_roles_mapping.get(t)`. -/
def lookupRole (mainMap similarMap : RoleMap) (t : String) : Option ProcessedRole :=
  match dictGetRole mainMap t with
  | some r => some r
  | none => dictGetRole similarMap t

/-- Result of `normalize_and_match`: normalized title, matched role (if any),
match type (if any). -/
abbrev NamResult : Type := String × Option ProcessedRole × Option String

/-- The block the source repeats for the Aho-Corasick and Word2Vec stages
(role resolution through both maps plus profile filtering).  The outer
`Option` distinguishes falling through to the next stage (`none`) from
returning; the inner `Option` marks the `AttributeError` the source would
raise when the filter branch dereferences an unresolvable matched title. -/
def matcher_stage (mainMap similarMap : RoleMap) (pm : IdMapping)
    (norm_title : String) (perfil_ids_filter : List Int) (match_type : String)
    (enabled : Bool) (matcherResult : Option String) :
    Option (Option NamResult) :=
  if enabled then
    match matcherResult with
    | some matched_role =>
      if matched_role ≠ "" then
        let db_norm_role := lookupRole mainMap similarMap matched_role
        if perfil_ids_filter ≠ [] then
          match db_norm_role with
          | none => some none
          | some r =>
            if set_inter_nonempty perfil_ids_filter r.perfil_ids then
              some (some (norm_title,
                some (ProcessedRole.filter_by_perfil_ids pm r perfil_ids_filter),
                some match_type))
            else some (some (norm_title, none, none))
        else some (some (norm_title, db_norm_role, some match_type))
      else none
    | none => none
  else none

/-- `RoleMatcher.normalize_and_match`.  The matchers themselves are passed as
functions (`aho_match`, `w2v_match`), together with their enable flags; the
result is `none` when the source would raise. -/
def normalize_and_match (env : NormEnv) (mainMap similarMap : RoleMap)
    (pm : IdMapping)
    (aho_enabled : Bool) (aho_match : String → Option String)
    (w2v_enabled : Bool) (w2v_match : String → Option String)
    (role_title : PyVal) (perfil_ids_filter : List Int) : Option NamResult :=
  let norm_title := (normalize env {} role_title).1
  match lookupRole mainMap similarMap norm_title with
  | some db_norm_role =>
    if perfil_ids_filter ≠ [] then
      if set_inter_nonempty perfil_ids_filter db_norm_role.perfil_ids then
        some (norm_title,
          some (ProcessedRole.filter_by_perfil_ids pm db_norm_role perfil_ids_filter),
          some "database")
      else some (norm_title, none, none)
    else some (norm_title, some db_norm_role, some "database")
  | none =>
    match matcher_stage mainMap similarMap pm norm_title perfil_ids_filter
        "ahocorasick" aho_enabled (aho_match norm_title) with
    | some res => res
    | none =>
      match matcher_stage mainMap similarMap pm norm_title perfil_ids_filter
          "word2vec" w2v_enabled (w2v_match norm_title) with
      | some res => res
      | none => some (norm_title, none, none)

/-- One role of `norm_main_roles` / `norm_similar_roles`: the title is
normalized with `correct_typos=False` and the taxonomy ids attached from
`role_id_mapping` (missing entries give empty lists). -/
def mkProcessedRole (env : NormEnv) (role_id_mapping : IdMapping)
    (db_role : Int × String) : ProcessedRole :=
  let n := normalize env { correct_typos := false } (.str db_role.2)
  { role_id := db_role.1
    title := db_role.2
    processed_title := n.1
    seniorities := n.2.1
    hierarchies := n.2.2
    areap_ids := ((alistGet role_id_mapping db_role.1).map (·.areap_ids)).getD []
    nivelh_ids := ((alistGet role_id_mapping db_role.1).map (·.nivelh_ids)).getD []
    perfil_ids := ((alistGet role_id_mapping db_role.1).map (·.perfil_ids)).getD [] }

def norm_main_roles (env : NormEnv) (role_id_mapping : IdMapping)
    (db_main_roles : List (Int × String)) : List ProcessedRole :=
  db_main_roles.map (mkProcessedRole env role_id_mapping)

def norm_similar_roles (env : NormEnv) (role_id_mapping : IdMapping)
    (db_similar_roles : List (Int × String)) : List ProcessedRole :=
  db_similar_roles.map (mkProcessedRole env role_id_mapping)

/-- `norm_main_roles_mapping`: first role with a given normalized title wins. -/
def build_main_mapping (roles : List ProcessedRole) : RoleMap :=
  roles.foldl
    (fun m r => if (dictGetRole m r.processed_title).isSome then m
                else m ++ [(r.processed_title, r)])
    []

/-- `norm_similar_roles_mapping`: a similar role binds its normalized title
only if no main role and no earlier similar role claimed it. -/
def build_similar_mapping (mainMap : RoleMap) (roles : List ProcessedRole) : RoleMap :=
  roles.foldl
    (fun m r => if (dictGetRole mainMap r.processed_title).isSome
                   ∨ (dictGetRole m r.processed_title).isSome then m
                else m ++ [(r.processed_title, r)])
    []

/-- The memoization key of `normalize_and_match` under
`@lru_hash_mutable @lru_cache`: `functools.lru_cache` stores one entry per
distinct argument tuple, and `lru_hash_mutable`'s `HashableList` wrapper
leaves list equality (`list.__eq__`, elementwise and order-sensitive) and
hashing (`hash(tuple(l))`) untouched — so two calls share a cache entry
exactly when the titles are equal and the filter lists are equal as
sequences. -/
def lru_cache_key (role_title : String) (perfil_ids_filter : List Int) :
    String × List Int :=
  (role_title, perfil_ids_filter)

end RoleMatcher

/-! ## `AhoCorasickMatcher` (aho_corasick_matcher.py), with the settings it
reads from `settings.py`. -/

namespace AhoCorasickMatcher

def aho_corasick_role_title_max_words : Nat := 50

def aho_corasick_word_combinations_min_length : Nat := 1

def aho_corasick_word_combinations_max_length : Nat := 10

def aho_corasick_single_word_titles_blocklist : List String :=
  ["arquiteto", "arquiteta", "architect", "arquitetura", "architecture",
   "medico", "medica",
   "fisico", "fisica",
   "seguranca", "security",
   "designer", "design"]

/-- The automaton separator. -/
def separator : Char := ';'

/-- `combinations(range(n+1), 2)`: pairs `(i, j)` with `i < j ≤ n`, in
lexicographic order. -/
def comboPairs (n : Nat) : List (Nat × Nat) :=
  (List.range (n + 1)).flatMap
    (fun i => ((List.range (n + 1)).filter (fun j => i < j)).map (fun j => (i, j)))

/-- The contiguous token sub-sequences (`norm_title_split[i:j]`) whose length
is within the configured bounds, in enumeration order. -/
def combinationsOf (toks : List String) : List (List String) :=
  (comboPairs toks.length).filterMap
    (fun ij =>
      if aho_corasick_word_combinations_min_length ≤ ij.2 - ij.1
          ∧ ij.2 - ij.1 ≤ aho_corasick_word_combinations_max_length
      then some ((toks.drop ij.1).take (ij.2 - ij.1))
      else none)

/-- `len(combination) > 1 or combination[0] not in blocklist` (combinations
are never empty; the default head only totalizes the function). -/
def blocklistOk (c : List String) : Bool :=
  1 < c.length ∨ ¬aho_corasick_single_word_titles_blocklist.contains (c.headD "")

/-- `norm_title_combinations.sort(key=len, reverse=True)`: Python's sort is
stable, so the result lists, for each length `k` in decreasing order, the
length-`k` combinations in their previous relative order. -/
def maxLenOf (l : List (List String)) : Nat :=
  l.foldr (fun c m => max c.length m) 0

def sortByLenDesc (l : List (List String)) : List (List String) :=
  (List.range (maxLenOf l + 1)).reverse.flatMap
    (fun k => l.filter (fun c => c.length = k))

/-- `list(self.automaton.iter_long(needle))` is non-empty iff some added word
— `";" + nt + ";"` for a normalized catalog title `nt` — occurs as a
substring of the needle. -/
def automatonHits (patterns : List String) (needle : List Char) : Bool :=
  patterns.any (fun nt => decide ((separator :: nt.data ++ [separator]) <:+: needle))

/-- `AhoCorasickMatcher.match`: `patterns` is the list of normalized titles
added to the automaton (the keys of the main and similar role mappings). -/
def match' (patterns : List String) (norm_title : String) : Option String :=
  let norm_title_split := (pySplitS norm_title).take aho_corasick_role_title_max_words
  let combos := combinationsOf norm_title_split
  let dedup := dedupFirst combos
  let filtered := dedup.filter blocklistOk
  let sorted := sortByLenDesc filtered
  (sorted.find? (fun c =>
      automatonHits patterns (separator :: (pyJoin c).data ++ [separator]))).map pyJoin

/-- The claim's description of `match`, written from its words: among the
contiguous token sub-sequences of the first 50 tokens, of length 1..10 and
with blocked single words removed, those whose joined text is itself a
catalog normalized title are the hits; return the joined text of a hit of
maximal length, ties broken by sub-sequence enumeration order, or `None` if
there is no hit. -/
def claim_match (patterns : List String) (norm_title : String) : Option String :=
  let toks := (pySplitS norm_title).take aho_corasick_role_title_max_words
  let cands := (combinationsOf toks).filter blocklistOk
  let hits := cands.filter (fun c => patterns.contains (pyJoin c))
  (hits.find? (fun c => c.length = maxLenOf hits)).map pyJoin

end AhoCorasickMatcher

/-! ## `W2vMatcher` (w2v_matcher.py): the embedding computations.

Vectors are lists of rationals (the claim under study is about the formula
computed, not about floating-point rounding). -/

namespace W2vMatcher

abbrev Vec : Type := List ℚ

def vzero (d : Nat) : Vec := List.replicate d 0

def vadd (a b : Vec) : Vec := a.zipWith (· + ·) b

/-- `get_vector(word) * weight`. -/
def vsmul (v : Vec) (q : ℚ) : Vec := v.map (· * q)

/-- `embedding / total_weight`. -/
def vdiv (v : Vec) (q : ℚ) : Vec := v.map (· / q)

/-- The word-embedding model and IDF table loaded from the shipped pickles. -/
structure W2vEnv : Type where
  dim : Nat
  words_w2v_model : List (String × Vec)
  words_idf : List (String × ℚ)

/-- `self.words_idf.get(word, 1)`. -/
def idfGet (e : W2vEnv) (w : String) : ℚ := (alistGet e.words_idf w).getD 1

/-- `self.words_w2v_model.get_vector(word)` (only called on words checked to
be present). -/
def vecGet (e : W2vEnv) (w : String) : Vec :=
  (alistGet e.words_w2v_model w).getD (vzero e.dim)

/-- `W2vMatcher._calculate_embedding`: `None` (modelled as `Option.none`)
when the title is empty, a word is missing from the Word2Vec model or the IDF
table, or the total weight is zero; otherwise the embedding together with the
total weight.  The numerator sums `vec(word) * idf(word)` over token
occurrences; the total weight sums `idf(word)` over the *set* of tokens
(`for word in set_norm_words`). -/
def calculate_embedding (e : W2vEnv) (norm_title : String) : Option (Vec × ℚ) :=
  if norm_title = "" then none
  else
    let norm_words := pySplitS norm_title
    if norm_words.all (fun w => (alistGet e.words_w2v_model w).isSome) then
      if norm_words.all (fun w => (alistGet e.words_idf w).isSome) then
        let total_weight := (dedupFirst norm_words).foldl (fun acc w => acc + idfGet e w) 0
        if total_weight = 0 then none
        else
          let embedding := norm_words.foldl
            (fun acc w => vadd acc (vsmul (vecGet e w) (idfGet e w))) (vzero e.dim)
          some (vdiv embedding total_weight, total_weight)
      else none
    else none

/-- The embedding `W2vMatcher.match` computes for one contiguous word
combination: it sums the *per-word* embeddings and weights precomputed by
`_calculate_embedding(word)` (`norm_word_to_embedding` / `norm_word_to_weight`)
over the combination's occurrences and divides by the summed weight; `none`
models both the early return when a word has no embedding and the `continue`
on zero total weight. -/
def combination_embedding (e : W2vEnv) (comb : List String) : Option Vec :=
  if comb.all (fun w => (calculate_embedding e w).isSome) then
    let embedding := comb.foldl
      (fun acc w => vadd acc (((calculate_embedding e w).map (·.1)).getD (vzero e.dim)))
      (vzero e.dim)
    let total_weight := comb.foldl
      (fun acc w => acc + (((calculate_embedding e w).map (·.2)).getD 0)) 0
    if total_weight = 0 then none else some (vdiv embedding total_weight)
  else none

end W2vMatcher

/-! ## Helper lemmas about the mapping construction -/

namespace RoleMatcher

lemma dictGetRole_append_of_isSome {m : RoleMap} {x : String × ProcessedRole} {k : String}
    (h : (dictGetRole m k).isSome) :
    dictGetRole (m ++ [x]) k = dictGetRole m k := by
  unfold dictGetRole alistGet at *
  rw [List.find?_append]
  cases hf : m.find? (fun kv => kv.1 = k) with
  | some v => simp [Option.orElse]
  | none => simp [hf] at h

lemma dictGetRole_preserved (l : List ProcessedRole) (acc : RoleMap) (k : String)
    (h : (dictGetRole acc k).isSome) :
    dictGetRole
      (l.foldl (fun m r => if (dictGetRole m r.processed_title).isSome then m
                           else m ++ [(r.processed_title, r)]) acc) k
      = dictGetRole acc k := by
  induction l generalizing acc with
  | nil => rfl
  | cons a l ih =>
    simp only [List.foldl_cons]
    by_cases ha : (dictGetRole acc a.processed_title).isSome
    · rw [if_pos ha, ih acc h]
    · rw [if_neg ha, ih _ (by rw [dictGetRole_append_of_isSome h]; exact h),
        dictGetRole_append_of_isSome h]

lemma dictGetRole_append_self {m : RoleMap} {k : String} {r : ProcessedRole}
    (h : dictGetRole m k = none) :
    dictGetRole (m ++ [(k, r)]) k = some r := by
  unfold dictGetRole alistGet at *
  rw [List.find?_append]
  cases hf : m.find? (fun kv => kv.1 = k) with
  | some v => simp [hf] at h
  | none => simp

/-- The first role of the main list carrying a given normalized title is what
`norm_main_roles_mapping` binds that title to. -/
lemma build_main_mapping_lookup (l1 l2 : List ProcessedRole) (r : ProcessedRole)
    (hfirst : ∀ r' ∈ l1, r'.processed_title ≠ r.processed_title) :
    dictGetRole (build_main_mapping (l1 ++ r :: l2)) r.processed_title = some r := by
  unfold build_main_mapping
  have main : ∀ (acc : RoleMap), dictGetRole acc r.processed_title = none →
      ∀ l1, (∀ r' ∈ l1, r'.processed_title ≠ r.processed_title) →
      dictGetRole
        ((l1 ++ r :: l2).foldl
          (fun m r' => if (dictGetRole m r'.processed_title).isSome then m
                       else m ++ [(r'.processed_title, r')]) acc)
        r.processed_title = some r := by
    intro acc hacc l1 hfirst
    induction l1 generalizing acc with
    | nil =>
      simp only [List.nil_append, List.foldl_cons]
      rw [if_neg (by simp [hacc])]
      rw [dictGetRole_preserved _ _ _ (by simp [dictGetRole_append_self hacc])]
      exact dictGetRole_append_self hacc
    | cons a l1 ih =>
      simp only [List.cons_append, List.foldl_cons]
      have hne : a.processed_title ≠ r.processed_title := hfirst a (by simp)
      by_cases ha : (dictGetRole acc a.processed_title).isSome
      · rw [if_pos ha]
        exact ih acc hacc (fun r' hr' => hfirst r' (by simp [hr']))
      · rw [if_neg ha]
        refine ih _ ?_ (fun r' hr' => hfirst r' (by simp [hr']))
        unfold dictGetRole alistGet at hacc ⊢
        rw [List.find?_append]
        cases hf : acc.find? (fun kv => kv.1 = r.processed_title) with
        | some v => simp [hf] at hacc
        | none => simp [hne]
  exact main [] rfl l1 hfirst

lemma dictGetRole_append_ne {m : RoleMap} {k' k : String} {v : ProcessedRole}
    (hne : k' ≠ k) : dictGetRole (m ++ [(k', v)]) k = dictGetRole m k := by
  unfold dictGetRole alistGet
  rw [List.find?_append]
  cases hf : m.find? (fun kv => kv.1 = k) with
  | some v' => simp [Option.orElse]
  | none => simp [hne]

/-- A normalized title carried by no main role is absent from
`norm_main_roles_mapping`. -/
lemma build_main_mapping_none (roles : List ProcessedRole) (k : String)
    (h : ∀ r' ∈ roles, r'.processed_title ≠ k) :
    dictGetRole (build_main_mapping roles) k = none := by
  unfold build_main_mapping
  have main : ∀ (acc : RoleMap), dictGetRole acc k = none →
      ∀ roles : List ProcessedRole, (∀ r' ∈ roles, r'.processed_title ≠ k) →
      dictGetRole
        (roles.foldl
          (fun m r' => if (dictGetRole m r'.processed_title).isSome then m
                       else m ++ [(r'.processed_title, r')]) acc) k = none := by
    intro acc hacc roles h
    induction roles generalizing acc with
    | nil => exact hacc
    | cons a l ih =>
      simp only [List.foldl_cons]
      by_cases ha : (dictGetRole acc a.processed_title).isSome
      · rw [if_pos ha]
        exact ih acc hacc (fun r' hr' => h r' (by simp [hr']))
      · rw [if_neg ha]
        refine ih _ ?_ (fun r' hr' => h r' (by simp [hr']))
        rw [dictGetRole_append_ne (h a (by simp))]
        exact hacc
  exact main [] rfl roles h

lemma dictGetRole_preserved_sim (mainMap : RoleMap) (l : List ProcessedRole)
    (acc : RoleMap) (k : String) (h : (dictGetRole acc k).isSome) :
    dictGetRole
      (l.foldl (fun m r => if (dictGetRole mainMap r.processed_title).isSome
                              ∨ (dictGetRole m r.processed_title).isSome then m
                           else m ++ [(r.processed_title, r)]) acc) k
      = dictGetRole acc k := by
  induction l generalizing acc with
  | nil => rfl
  | cons a l ih =>
    simp only [List.foldl_cons]
    by_cases ha : (dictGetRole mainMap a.processed_title).isSome
        ∨ (dictGetRole acc a.processed_title).isSome
    · rw [if_pos ha, ih acc h]
    · rw [if_neg ha, ih _ (by rw [dictGetRole_append_of_isSome h]; exact h),
        dictGetRole_append_of_isSome h]

/-- The first similar role carrying a normalized title that no main role has
is what `norm_similar_roles_mapping` binds that title to. -/
lemma build_similar_mapping_lookup (mainMap : RoleMap) (l1 l2 : List ProcessedRole)
    (r : ProcessedRole)
    (hmain : dictGetRole mainMap r.processed_title = none)
    (hfirst : ∀ r' ∈ l1, r'.processed_title ≠ r.processed_title) :
    dictGetRole (build_similar_mapping mainMap (l1 ++ r :: l2))
      r.processed_title = some r := by
  unfold build_similar_mapping
  have main : ∀ (acc : RoleMap), dictGetRole acc r.processed_title = none →
      ∀ l1, (∀ r' ∈ l1, r'.processed_title ≠ r.processed_title) →
      dictGetRole
        ((l1 ++ r :: l2).foldl
          (fun m r' => if (dictGetRole mainMap r'.processed_title).isSome
                          ∨ (dictGetRole m r'.processed_title).isSome then m
                       else m ++ [(r'.processed_title, r')]) acc)
        r.processed_title = some r := by
    intro acc hacc l1 hfirst
    induction l1 generalizing acc with
    | nil =>
      simp only [List.nil_append, List.foldl_cons]
      rw [if_neg (by simp [hacc, hmain])]
      rw [dictGetRole_preserved_sim mainMap _ _ _
        (by simp [dictGetRole_append_self hacc])]
      exact dictGetRole_append_self hacc
    | cons a l1 ih =>
      simp only [List.cons_append, List.foldl_cons]
      have hne : a.processed_title ≠ r.processed_title := hfirst a (by simp)
      by_cases ha : (dictGetRole mainMap a.processed_title).isSome
          ∨ (dictGetRole acc a.processed_title).isSome
      · rw [if_pos ha]
        exact ih acc hacc (fun r' hr' => hfirst r' (by simp [hr']))
      · rw [if_neg ha]
        refine ih _ ?_ (fun r' hr' => hfirst r' (by simp [hr']))
        rw [dictGetRole_append_ne hne]
        exact hacc
  exact main [] rfl l1 hfirst

end RoleMatcher

/-! ## Shared concrete fixtures used by witnesses and counterexamples -/

open RoleNormalizer RoleMatcher

/-- A concrete engine environment: all gazetteer tables empty (files with only
comments are legal), empty dictionary, no spell suggestions. -/
def env0 : NormEnv :=
  { fileStopwords := []
    special_character_regexes := []
    thesaurus_regexes := []
    gender_regexes := []
    conjugation_mapping := []
    plural_suffix_rules := []
    sorted_locations := []
    dictionary := []
    spell_lookup := fun _ => none
    stem := fun s => s }

/-- A concrete catalog role bound to normalized title `"x"`. -/
def role_x : ProcessedRole :=
  { role_id := 10, title := "x", processed_title := "x",
    seniorities := [], hierarchies := [],
    areap_ids := [100, 101], nivelh_ids := [200], perfil_ids := [5, 6] }

def mainMap_x : RoleMap := [("x", role_x)]

def pm_x : IdMapping :=
  [(5, { areap_ids := [100], nivelh_ids := [], perfil_ids := [5] }),
   (7, { areap_ids := [101], nivelh_ids := [200], perfil_ids := [7] })]

/-- Titles the normalizer treats as invalid
(`not role_title or not isinstance(role_title, str)`). -/
def PyVal.invalidTitle : PyVal → Prop
  | .str s => s = ""
  | _ => True

lemma mem_dedupFirstAux {α : Type} [DecidableEq α] (l seen : List α) (a : α) :
    a ∈ dedupFirstAux l seen ↔ a ∈ l ∧ a ∉ seen := by
  induction l generalizing seen with
  | nil => simp [dedupFirstAux]
  | cons b l ih =>
    by_cases hb : b ∈ seen
    · simp only [dedupFirstAux, if_pos hb, ih, List.mem_cons]
      constructor
      · rintro ⟨hl, hs⟩; exact ⟨Or.inr hl, hs⟩
      · rintro ⟨hl | hl, hs⟩
        · exact absurd (hl ▸ hb) hs
        · exact ⟨hl, hs⟩
    · simp only [dedupFirstAux, if_neg hb, List.mem_cons, ih]
      constructor
      · rintro (rfl | ⟨hl, hs⟩)
        · exact ⟨Or.inl rfl, hb⟩
        · refine ⟨Or.inr hl, fun hmem => hs (by simp [hmem])⟩
      · rintro ⟨rfl | hl, hs⟩
        · exact Or.inl rfl
        · by_cases hab : a = b
          · exact Or.inl hab
          · exact Or.inr ⟨hl, by simp [hs, hab]⟩

lemma mem_dedupFirst {α : Type} [DecidableEq α] (l : List α) (a : α) :
    a ∈ dedupFirst l ↔ a ∈ l := by
  simp [dedupFirst, mem_dedupFirstAux]

/-- Concrete catalog for the C1 counterexample: a main role and a similar
role whose titles normalize identically. -/
def main_adv : List (Int × String) := [(1, "advogado")]

def similar_adv : List (Int × String) := [(2, "advogado")]

def mainMap_adv : RoleMap := build_main_mapping (norm_main_roles env0 [] main_adv)

def similarMap_adv : RoleMap :=
  build_similar_mapping mainMap_adv (norm_similar_roles env0 [] similar_adv)

/-- Concrete catalog for the C7 counterexample: the main role `(1, ";")`
normalizes to the empty string, which becomes a key of the mapping. -/
def mainMap_semi : RoleMap := build_main_mapping (norm_main_roles env0 [] [(1, ";")])

/-! ## Claims -/

/-- C9: for every input and every option setting, the seniorities and
hierarchies returned by `normalize` are exactly the tokens of the text as it
stands after accent folding (step 8) that belong to the fixed seniority and
hierarchy sets, in occurrence order, duplicates kept — extracted before
location removal and before the conjugation, plural, gender, thesaurus and
stemming rewrites (which only affect the returned text). -/
theorem claim_C9 (env : NormEnv) (opts : NormOpts) (v : PyVal) :
    (normalize env opts v).2.1
        = (pySplitS (step8_text env opts v)).filter (fun tok => seniorities.contains tok)
      ∧ (normalize env opts v).2.2
        = (pySplitS (step8_text env opts v)).filter (fun tok => hierarchies.contains tok) := by
  cases v with
  | str s =>
    by_cases h : s = "" <;>
      simp [RoleNormalizer.normalize, step8_text, h, pySplitS, pySplit, splitWsAux]
  | intv n => exact ⟨rfl, rfl⟩
  | pynone => exact ⟨rfl, rfl⟩

/-- C5: whenever the exact lookup of the normalized title succeeds, the result
of `normalize_and_match` does not depend on the Aho-Corasick or Word2Vec
matchers at all — neither on their enable flags nor on the matchers
themselves: the cascade short-circuits on the exact hit. -/
theorem claim_C5 (env : NormEnv) (mainMap similarMap : RoleMap) (pm : IdMapping)
    (title : PyVal) (filt : List Int) (r : ProcessedRole)
    (h : lookupRole mainMap similarMap ((normalize env {} title).1) = some r)
    (aE₁ aE₂ wE₁ wE₂ : Bool) (aM₁ aM₂ wM₁ wM₂ : String → Option String) :
    normalize_and_match env mainMap similarMap pm aE₁ aM₁ wE₁ wM₁ title filt
      = normalize_and_match env mainMap similarMap pm aE₂ aM₂ wE₂ wM₂ title filt := by
  simp only [normalize_and_match, h]

/-- Witness for C5 at a concrete input: the exact lookup of `"x"` succeeds,
and the result with both matchers enabled (and a would-be different
Aho-Corasick answer) equals the result with both disabled. -/
theorem claim_C5_witness :
    lookupRole mainMap_x [] ((normalize env0 {} (.str "x")).1) = some role_x
    ∧ normalize_and_match env0 mainMap_x [] pm_x true (fun _ => some "x") true (fun _ => some "x")
        (.str "x") []
      = normalize_and_match env0 mainMap_x [] pm_x false (fun _ => none) false (fun _ => none)
        (.str "x") [] := by
  refine ⟨by decide, claim_C5 env0 mainMap_x [] pm_x (.str "x") [] role_x (by decide) _ _ _ _ _ _ _ _⟩

/-- C10: when the profile filter is non-empty, the exact stage misses, and the
Aho-Corasick matcher returns a sub-title whose resolved role has `perfil_ids`
disjoint from the filter, `normalize_and_match` returns
`(normalized_text, None, None)` immediately — whatever the Word2Vec flag and
matcher would have said. -/
theorem claim_C10 (env : NormEnv) (mainMap similarMap : RoleMap) (pm : IdMapping)
    (aM : String → Option String) (title : PyVal) (filt : List Int)
    (m : String) (r : ProcessedRole)
    (hfilt : filt ≠ [])
    (hmiss : lookupRole mainMap similarMap ((normalize env {} title).1) = none)
    (haho : aM ((normalize env {} title).1) = some m)
    (hm : m ≠ "")
    (hres : lookupRole mainMap similarMap m = some r)
    (hdisj : set_inter_nonempty filt r.perfil_ids = false)
    (wE : Bool) (wM : String → Option String) :
    normalize_and_match env mainMap similarMap pm true aM wE wM title filt
      = some ((normalize env {} title).1, none, none) := by
  simp only [normalize_and_match, matcher_stage, hmiss, haho, hres, hdisj, hfilt,
    if_pos hm, if_true, ne_eq, not_false_eq_true, Bool.false_eq_true, if_false]

/-- `settings.aho_corasick_matching_enabled`. -/
def aho_corasick_matching_enabled : Bool := true

/-- `settings.w2v_matching_enabled`. -/
def w2v_matching_enabled : Bool := false

/-- On an empty normalized title the Aho-Corasick matcher has no tokens, no
combinations and therefore no match. -/
lemma AhoCorasickMatcher.match'_empty (patterns : List String) :
    AhoCorasickMatcher.match' patterns "" = none := rfl

/-- C7 fails as stated: `normalize` does return `("", [], [])` on empty or
non-string input, but `normalize_and_match` does *not* return "no match"
regardless of the catalog.  Concretely, the catalog `[(1, ";")]` has a main
role whose title normalizes to the empty string; the empty string then becomes
a key of the main-roles mapping and the empty input gets an exact match. -/
theorem claim_C7_counterexample :
    normalize_and_match env0 mainMap_semi [] [] aho_corasick_matching_enabled
        (AhoCorasickMatcher.match' (mainMap_semi.map (·.1))) w2v_matching_enabled
        (fun _ => none) (.str "") []
      ≠ some ("", none, none) := by decide

/-- C7, amended: if the empty string is not a key of the main- or
similar-roles mapping (no catalog title normalizes to the empty string), then
for every empty or non-string input title, every option setting and every
profile filter, `normalize` returns `("", [], [])` and `normalize_and_match`
(with the settings' default matcher configuration: Aho-Corasick enabled over
arbitrary patterns, Word2Vec disabled) returns `("", None, None)`. -/
theorem claim_C7 (env : NormEnv) (opts : NormOpts) (mainMap similarMap : RoleMap)
    (pm : IdMapping) (patterns : List String) (filt : List Int) (v : PyVal)
    (hmain : dictGetRole mainMap "" = none) (hsim : dictGetRole similarMap "" = none)
    (hv : v.invalidTitle) :
    RoleNormalizer.normalize env opts v = ("", [], [])
      ∧ normalize_and_match env mainMap similarMap pm aho_corasick_matching_enabled
          (AhoCorasickMatcher.match' patterns) w2v_matching_enabled (fun _ => none) v filt
        = some ("", none, none) := by
  have hnorm : ∀ opts', RoleNormalizer.normalize env opts' v = ("", [], []) := by
    intro opts'
    cases v with
    | str s => simp only [PyVal.invalidTitle] at hv; simp [RoleNormalizer.normalize, hv]
    | intv n => rfl
    | pynone => rfl
  refine ⟨hnorm opts, ?_⟩
  have hlk : lookupRole mainMap similarMap "" = none := by
    simp only [lookupRole, hmain, hsim]
  simp only [normalize_and_match, hnorm {}, hlk, matcher_stage,
    AhoCorasickMatcher.match'_empty, w2v_matching_enabled, aho_corasick_matching_enabled,
    Bool.false_eq_true, if_false, if_true]

/-- Witness for C7 at concrete inputs: an empty catalog, the empty-string
title and the non-string title `None`, with a non-empty profile filter. -/
theorem claim_C7_witness :
    (RoleNormalizer.normalize env0 {} (.str "") = ("", [], [])
      ∧ normalize_and_match env0 [] [] [] aho_corasick_matching_enabled
          (AhoCorasickMatcher.match' []) w2v_matching_enabled (fun _ => none) (.str "") [3]
        = some ("", none, none))
    ∧ (RoleNormalizer.normalize env0 {} .pynone = ("", [], [])
      ∧ normalize_and_match env0 [] [] [] aho_corasick_matching_enabled
          (AhoCorasickMatcher.match' []) w2v_matching_enabled (fun _ => none) .pynone []
        = some ("", none, none)) :=
  ⟨claim_C7 env0 {} [] [] [] [] [3] (.str "") (by decide) (by decide) rfl,
   claim_C7 env0 {} [] [] [] [] [] .pynone (by decide) (by decide) trivial⟩

/-- C1 fails as stated: with a main role `(1, "advogado")` and a similar role
`(2, "advogado")`, the normalized titles collide, the main role wins the
binding, and `normalize_and_match("advogado")` returns role 1 — so the claim's
"for every catalog role `r` ... `r'.role_id == r.role_id`" is false for the
similar role. -/
theorem claim_C1_counterexample :
    ¬ ∀ r ∈ norm_main_roles env0 [] main_adv ++ norm_similar_roles env0 [] similar_adv,
        (normalize_and_match env0 mainMap_adv similarMap_adv [] false (fun _ => none)
            false (fun _ => none) (.str r.title) []).map
            (fun res => (res.2.1.map (·.role_id), res.2.2))
          = some (some r.role_id, some "database") := by
  decide

/-- C1, amended: for every catalog role `r` that its normalized-title binding
resolves to — `r` is the first main role with its normalized title, or a
similar role whose normalized title no main role and no earlier similar role
has — and whose title's default-option normalization (`correct_typos=true`)
coincides with its catalog normalization (`correct_typos=false`),
`normalize_and_match(r.title)` with no profile filter returns `r` as an exact
(`"database"`) match, whatever the matcher flags. -/
theorem claim_C1 (env : NormEnv) (role_id_mapping : IdMapping)
    (db_main_roles db_similar_roles : List (Int × String)) (pm : IdMapping)
    (aE wE : Bool) (aM wM : String → Option String)
    (r : ProcessedRole)
    (hbind :
      (∃ l1 l2, norm_main_roles env role_id_mapping db_main_roles = l1 ++ r :: l2
         ∧ ∀ r' ∈ l1, r'.processed_title ≠ r.processed_title)
      ∨ ((∀ r' ∈ norm_main_roles env role_id_mapping db_main_roles,
            r'.processed_title ≠ r.processed_title)
         ∧ ∃ l1 l2,
            norm_similar_roles env role_id_mapping db_similar_roles = l1 ++ r :: l2
            ∧ ∀ r' ∈ l1, r'.processed_title ≠ r.processed_title))
    (hq : (RoleNormalizer.normalize env {} (.str r.title)).1 = r.processed_title) :
    normalize_and_match env
        (build_main_mapping (norm_main_roles env role_id_mapping db_main_roles))
        (build_similar_mapping
          (build_main_mapping (norm_main_roles env role_id_mapping db_main_roles))
          (norm_similar_roles env role_id_mapping db_similar_roles))
        pm aE aM wE wM (.str r.title) []
      = some (r.processed_title, some r, some "database") := by
  have hlk : lookupRole
      (build_main_mapping (norm_main_roles env role_id_mapping db_main_roles))
      (build_similar_mapping
        (build_main_mapping (norm_main_roles env role_id_mapping db_main_roles))
        (norm_similar_roles env role_id_mapping db_similar_roles))
      r.processed_title = some r := by
    rcases hbind with ⟨l1, l2, hsplit, hfirst⟩ | ⟨hnomain, l1, l2, hsplit, hfirst⟩
    · have h0 : dictGetRole
          (build_main_mapping (norm_main_roles env role_id_mapping db_main_roles))
          r.processed_title = some r := by
        rw [hsplit]; exact build_main_mapping_lookup l1 l2 r hfirst
      unfold lookupRole
      rw [h0]
    · have h0 : dictGetRole
          (build_main_mapping (norm_main_roles env role_id_mapping db_main_roles))
          r.processed_title = none :=
        build_main_mapping_none _ _ hnomain
      have h1 : dictGetRole
          (build_similar_mapping
            (build_main_mapping (norm_main_roles env role_id_mapping db_main_roles))
            (norm_similar_roles env role_id_mapping db_similar_roles))
          r.processed_title = some r := by
        rw [hsplit]; exact build_similar_mapping_lookup _ l1 l2 r h0 hfirst
      unfold lookupRole
      rw [h0, h1]
  simp only [normalize_and_match, hq, hlk]
  simp

/-- Witness for C1 at a concrete catalog exercising the similar-role branch:
the similar role `(3, "medico")` carries a normalized title no main role has,
is bound to it in the similar mapping, and is returned as an exact match
(`(2, "advogado")`, shadowed by the main role, binds nothing). -/
theorem claim_C1_witness :
    normalize_and_match env0 (build_main_mapping (norm_main_roles env0 [] main_adv))
        (build_similar_mapping (build_main_mapping (norm_main_roles env0 [] main_adv))
          (norm_similar_roles env0 [] [(2, "advogado"), (3, "medico")]))
        [] true (fun _ => none) false (fun _ => none) (.str "medico") []
      = some ("medico", some (mkProcessedRole env0 [] (3, "medico")), some "database") := by
  have h := claim_C1 env0 [] main_adv [(2, "advogado"), (3, "medico")] [] true false
    (fun _ => none) (fun _ => none) (mkProcessedRole env0 [] (3, "medico"))
    (Or.inr ⟨by decide,
      [mkProcessedRole env0 [] (2, "advogado")], [], by decide, by decide⟩)
    (by decide)
  have ht : (mkProcessedRole env0 [] (3, "medico")).title = "medico" := by decide
  have hp : (mkProcessedRole env0 [] (3, "medico")).processed_title = "medico" := by decide
  rw [ht, hp] at h
  exact h

/-- C3 fails as stated: the memoization key is order-dependent.  `lru_cache`
stores one entry per distinct argument tuple and `HashableList` compares (and
hashes) the filter as a sequence, so `[1, 2]` and `[2, 1]` do not map to the
same cache key. -/
theorem claim_C3_counterexample :
    lru_cache_key "analista" [1, 2] ≠ lru_cache_key "analista" [2, 1] := by
  decide

lemma set_inter_nonempty_perm {f1 f2 : List Int} (h : f1.Perm f2) (b : List Int) :
    set_inter_nonempty f1 b = set_inter_nonempty f2 b := by
  cases ha : set_inter_nonempty f1 b <;> cases hb : set_inter_nonempty f2 b <;>
    simp only [set_inter_nonempty, List.any_eq_true, List.any_eq_false] at ha hb <;>
    first
      | rfl
      | (exfalso
         rcases hb with ⟨x, hx, hpx⟩
         exact absurd hpx (ha x (h.mem_iff.mpr hx)))
      | (exfalso
         rcases ha with ⟨x, hx, hpx⟩
         exact absurd hpx (hb x (h.mem_iff.mp hx)))

lemma contains_eq_of_perm {l₁ l₂ : List Int} (h : l₁.Perm l₂) (x : Int) :
    l₁.contains x = l₂.contains x := by
  cases hc : l₂.contains x
  · cases hb : l₁.contains x
    · rfl
    · have : l₂.contains x = true := List.elem_iff.mpr (h.mem_iff.mp (List.elem_iff.mp hb))
      rw [hc] at this
      cases this
  · exact List.elem_iff.mpr (h.mem_iff.mpr (List.elem_iff.mp hc))

lemma filter_ids_perm (pm : IdMapping) (ids : List Int) {f1 f2 : List Int}
    (h : f1.Perm f2) (sel : IdMapEntry → List Int) :
    ProcessedRole.filter_ids pm ids f1 sel = ProcessedRole.filter_ids pm ids f2 sel := by
  have hun : (ProcessedRole.filtered_ids_union pm f1 sel).Perm
      (ProcessedRole.filtered_ids_union pm f2 sel) :=
    List.Perm.flatMap_right _ h
  by_cases hnil : f1 = []
  · have hnil2 : f2 = [] := ((hnil ▸ h : List.Perm [] f2)).symm.eq_nil
    rw [hnil, hnil2]
  · have hnil2 : f2 ≠ [] := fun e => hnil ((e ▸ h : f1.Perm []).eq_nil)
    unfold ProcessedRole.filter_ids ProcessedRole.pySetInter
    rw [if_pos hnil, if_pos hnil2]
    exact List.filter_congr (fun x _ => contains_eq_of_perm hun x)

lemma filter_by_perfil_ids_perm (pm : IdMapping) (r : ProcessedRole) {f1 f2 : List Int}
    (h : f1.Perm f2) :
    ProcessedRole.filter_by_perfil_ids pm r f1 = ProcessedRole.filter_by_perfil_ids pm r f2 := by
  unfold ProcessedRole.filter_by_perfil_ids
  rw [filter_ids_perm pm r.areap_ids h, filter_ids_perm pm r.nivelh_ids h,
    filter_ids_perm pm r.perfil_ids h]

/-- C3, amended: two profile-filter lists with the same integers in any order
yield equal results from `normalize_and_match` (the whole pipeline consumes
the filter through order-independent set operations) — but they do *not* map
to the same cache key unless they are the same sequence: the
`lru_hash_mutable`/`lru_cache` key compares the filter list elementwise in
order (see the counterexample). -/
theorem claim_C3 (env : NormEnv) (mainMap similarMap : RoleMap) (pm : IdMapping)
    (aE wE : Bool) (aM wM : String → Option String) (title : PyVal)
    {f1 f2 : List Int} (h : f1.Perm f2) :
    normalize_and_match env mainMap similarMap pm aE aM wE wM title f1
      = normalize_and_match env mainMap similarMap pm aE aM wE wM title f2 := by
  by_cases hnil : f1 = []
  · have hnil2 : f2 = [] := ((hnil ▸ h : List.Perm [] f2)).symm.eq_nil
    rw [hnil, hnil2]
  · have hnil2 : f2 ≠ [] := fun e => hnil ((e ▸ h : f1.Perm []).eq_nil)
    have hne : (f1 ≠ []) = (f2 ≠ []) := by
      rw [eq_iff_iff]; exact iff_of_true hnil hnil2
    have hint : ∀ b, set_inter_nonempty f1 b = set_inter_nonempty f2 b :=
      set_inter_nonempty_perm h
    have hfb : ∀ r, ProcessedRole.filter_by_perfil_ids pm r f1
        = ProcessedRole.filter_by_perfil_ids pm r f2 :=
      fun r => filter_by_perfil_ids_perm pm r h
    simp only [normalize_and_match, matcher_stage, hne, hint, hfb]

/-- Witness for C3: `[5, 7]` and `[7, 5]` are permutations, and the two calls
return equal results on a concrete catalog. -/
theorem claim_C3_witness :
    normalize_and_match env0 mainMap_x [] pm_x false (fun _ => none) false (fun _ => none)
        (.str "x") [5, 7]
      = normalize_and_match env0 mainMap_x [] pm_x false (fun _ => none) false (fun _ => none)
        (.str "x") [7, 5] :=
  claim_C3 env0 mainMap_x [] pm_x false false (fun _ => none) (fun _ => none) (.str "x")
    (by decide)

lemma mem_optGetD (o : Option IdMapEntry) (sel : IdMapEntry → List Int) (x : Int) :
    x ∈ ((o.map sel).getD []) ↔ ∃ e, o = some e ∧ x ∈ sel e := by
  cases o <;> simp

/-- Membership in `_filter_ids` under a non-empty filter: an id survives iff
it was present and some profile of the filter maps to it. -/
lemma mem_filter_ids (pm : IdMapping) (ids filt : List Int)
    (sel : IdMapEntry → List Int) (x : Int) (hf : filt ≠ []) :
    x ∈ ProcessedRole.filter_ids pm ids filt sel
      ↔ x ∈ ids ∧ ∃ p ∈ filt, ∃ e, alistGet pm p = some e ∧ x ∈ sel e := by
  unfold ProcessedRole.filter_ids ProcessedRole.pySetInter ProcessedRole.filtered_ids_union
  rw [if_pos hf]
  simp only [List.mem_filter, mem_dedupFirst, List.elem_iff, List.mem_flatMap]
  constructor
  · rintro ⟨hid, p, hp, hx⟩
    exact ⟨hid, p, hp, (mem_optGetD _ sel x).mp hx⟩
  · rintro ⟨hid, p, hp, he⟩
    exact ⟨hid, p, hp, (mem_optGetD _ sel x).mpr he⟩

/-- If a matcher stage falls through (is not taken) for one filter, it falls
through for every filter: the firing condition — stage enabled, matcher
returned a non-empty title — does not consult the filter. -/
lemma matcher_stage_fallthrough (mainMap similarMap : RoleMap) (pm : IdMapping)
    (norm_title : String) (mt : String) (en : Bool) (mres : Option String)
    (filt1 filt2 : List Int)
    (h : matcher_stage mainMap similarMap pm norm_title filt1 mt en mres = none) :
    matcher_stage mainMap similarMap pm norm_title filt2 mt en mres = none := by
  unfold matcher_stage at h ⊢
  by_cases hen : en = true
  · simp only [hen, if_true] at h ⊢
    cases mres with
    | none => rfl
    | some m =>
      by_cases hm : m ≠ ""
      · exfalso
        simp only [if_pos hm] at h
        by_cases hf1 : filt1 ≠ []
        · rw [if_pos hf1] at h
          cases hlk : lookupRole mainMap similarMap m with
          | none => rw [hlk] at h; exact Option.noConfusion h
          | some r =>
            rw [hlk] at h
            split at h <;>
              first
                | exact Option.noConfusion h
                | (split at h <;> exact Option.noConfusion h)
        · rw [if_neg hf1] at h
          exact Option.noConfusion h
      · simp only [if_neg hm] at h ⊢
  · simp only [Bool.not_eq_true] at hen
    simp [hen] at h ⊢

/-- If a matcher stage fired for the empty filter, the stage was enabled, the
matcher returned a non-empty title `m`, and the returned value resolves `m`
through the two maps with match type `mt`. -/
lemma matcher_stage_empty_inv (mainMap similarMap : RoleMap) (pm : IdMapping)
    (norm_title : String) (mt : String) (en : Bool) (mres : Option String)
    (res : Option NamResult)
    (h : matcher_stage mainMap similarMap pm norm_title [] mt en mres = some res) :
    ∃ m, en = true ∧ mres = some m ∧ m ≠ ""
      ∧ res = some (norm_title, lookupRole mainMap similarMap m, some mt) := by
  unfold matcher_stage at h
  by_cases hen : en = true
  · simp only [hen, if_true] at h
    cases mres with
    | none => exact absurd h (by simp)
    | some m =>
      by_cases hm : m ≠ ""
      · refine ⟨m, hen, rfl, hm, ?_⟩
        simp only [if_pos hm, if_neg (show ¬([] : List Int) ≠ [] by simp),
          Option.some.injEq] at h
        exact h.symm
      · simp only [if_neg hm] at h
        exact absurd h (by simp)
  · simp only [Bool.not_eq_true] at hen
    simp [hen] at h

/-- A firing matcher stage under a non-empty filter applies the filter
discipline to the resolved role. -/
lemma matcher_stage_fire (mainMap similarMap : RoleMap) (pm : IdMapping)
    (norm_title : String) (mt : String) (m : String) (r : ProcessedRole)
    (filt : List Int) (hf : filt ≠ []) (hm : m ≠ "")
    (hr : lookupRole mainMap similarMap m = some r) :
    matcher_stage mainMap similarMap pm norm_title filt mt true (some m)
      = some (if set_inter_nonempty filt r.perfil_ids = true
              then some (norm_title,
                some (ProcessedRole.filter_by_perfil_ids pm r filt), some mt)
              else some (norm_title, none, none)) := by
  unfold matcher_stage
  simp only [if_true, if_pos hm, if_pos hf, hr]
  split <;> rfl

/-- C6: under a non-empty profile filter, whichever cascade stage fires (the
stage and the role it selects are those of the unfiltered run): a role with
`perfil_ids` disjoint from the filter yields `(norm, None, None)`, and an
intersecting role is returned with its `areap`/`nivelh`/`perfil` id lists
intersected with the union of the mapped id sets of the filter's profiles. -/
theorem claim_C6 (env : NormEnv) (mainMap similarMap : RoleMap) (pm : IdMapping)
    (aE wE : Bool) (aM wM : String → Option String) (title : PyVal)
    (filt : List Int) (hf : filt ≠ [])
    (norm : String) (r : ProcessedRole) (mt : String)
    (h0 : normalize_and_match env mainMap similarMap pm aE aM wE wM title []
            = some (norm, some r, some mt)) :
    (set_inter_nonempty filt r.perfil_ids = false →
        normalize_and_match env mainMap similarMap pm aE aM wE wM title filt
          = some (norm, none, none))
    ∧ (set_inter_nonempty filt r.perfil_ids = true →
        normalize_and_match env mainMap similarMap pm aE aM wE wM title filt
          = some (norm, some (ProcessedRole.filter_by_perfil_ids pm r filt), some mt))
    ∧ (∀ x : Int,
        (x ∈ (ProcessedRole.filter_by_perfil_ids pm r filt).areap_ids
          ↔ x ∈ r.areap_ids ∧ ∃ p ∈ filt, ∃ e, alistGet pm p = some e ∧ x ∈ e.areap_ids)
        ∧ (x ∈ (ProcessedRole.filter_by_perfil_ids pm r filt).nivelh_ids
          ↔ x ∈ r.nivelh_ids ∧ ∃ p ∈ filt, ∃ e, alistGet pm p = some e ∧ x ∈ e.nivelh_ids)
        ∧ (x ∈ (ProcessedRole.filter_by_perfil_ids pm r filt).perfil_ids
          ↔ x ∈ r.perfil_ids ∧ ∃ p ∈ filt, ∃ e, alistGet pm p = some e ∧ x ∈ e.perfil_ids)) := by
  have key : normalize_and_match env mainMap similarMap pm aE aM wE wM title filt
      = some (if set_inter_nonempty filt r.perfil_ids = true
              then (norm, some (ProcessedRole.filter_by_perfil_ids pm r filt), some mt)
              else (norm, none, none)) := by
    simp only [normalize_and_match] at h0 ⊢
    cases hlk : lookupRole mainMap similarMap ((RoleNormalizer.normalize env {} title).1) with
    | some r0 =>
      simp only [hlk] at h0 ⊢
      rw [if_neg (by simp : ¬([] : List Int) ≠ [])] at h0
      simp only [Option.some.injEq, Prod.mk.injEq] at h0
      obtain ⟨h1, h2, h3⟩ := h0
      obtain rfl := h1
      have hrr : r0 = r := by simpa using h2
      obtain rfl : mt = "database" := by simpa using h3.symm
      rw [hrr, if_pos hf]
      by_cases hb : set_inter_nonempty filt r.perfil_ids = true
      · rw [if_pos hb, if_pos hb]
      · rw [if_neg hb, if_neg hb]
    | none =>
      simp only [hlk] at h0 ⊢
      cases hst : matcher_stage mainMap similarMap pm
          ((RoleNormalizer.normalize env {} title).1) [] "ahocorasick" aE
          (aM ((RoleNormalizer.normalize env {} title).1)) with
      | some res =>
        simp only [hst] at h0
        obtain ⟨m, hen, hm, hne, rfl⟩ := matcher_stage_empty_inv _ _ _ _ _ _ _ _ hst
        simp only [Option.some.injEq, Prod.mk.injEq] at h0
        obtain ⟨h1, h2, h3⟩ := h0
        obtain rfl := h1
        obtain rfl : mt = "ahocorasick" := by simpa using h3.symm
        have hr : lookupRole mainMap similarMap m = some r := h2
        rw [hen, hm, matcher_stage_fire mainMap similarMap pm _ _ m r filt hf hne hr]
        by_cases hb : set_inter_nonempty filt r.perfil_ids = true
        · rw [if_pos hb, if_pos hb]
        · rw [if_neg hb, if_neg hb]
      | none =>
        simp only [hst] at h0
        rw [matcher_stage_fallthrough mainMap similarMap pm _ _ aE _ [] filt hst]
        cases hst2 : matcher_stage mainMap similarMap pm
            ((RoleNormalizer.normalize env {} title).1) [] "word2vec" wE
            (wM ((RoleNormalizer.normalize env {} title).1)) with
        | some res2 =>
          simp only [hst2] at h0
          obtain ⟨m, hen, hm, hne, rfl⟩ := matcher_stage_empty_inv _ _ _ _ _ _ _ _ hst2
          simp only [Option.some.injEq, Prod.mk.injEq] at h0
          obtain ⟨h1, h2, h3⟩ := h0
          obtain rfl := h1
          obtain rfl : mt = "word2vec" := by simpa using h3.symm
          have hr : lookupRole mainMap similarMap m = some r := h2
          rw [hen, hm, matcher_stage_fire mainMap similarMap pm _ _ m r filt hf hne hr]
          by_cases hb : set_inter_nonempty filt r.perfil_ids = true
          · rw [if_pos hb, if_pos hb]
          · rw [if_neg hb, if_neg hb]
        | none =>
          simp only [hst2] at h0
          simp at h0
  refine ⟨fun hint => ?_, fun hint => ?_, fun x =>
    ⟨mem_filter_ids pm r.areap_ids filt (·.areap_ids) x hf,
     mem_filter_ids pm r.nivelh_ids filt (·.nivelh_ids) x hf,
     mem_filter_ids pm r.perfil_ids filt (·.perfil_ids) x hf⟩⟩
  · rw [key, if_neg (by simp [hint])]
  · rw [key, if_pos hint]

/-! ### C4: the Aho-Corasick matcher

Generic list lemmas first (first-match queries through de-duplication and the
stable length-descending sort), then the sentinel argument, then the claim. -/

section C4Lemmas

variable {α : Type} [DecidableEq α]

lemma find?_congr' (l : List α) (p q : α → Bool) (h : ∀ a ∈ l, p a = q a) :
    l.find? p = l.find? q := by
  induction l with
  | nil => rfl
  | cons a as ih =>
    have ha := h a (by simp)
    by_cases hp : p a = true
    · rw [List.find?_cons_of_pos _ hp, List.find?_cons_of_pos _ (ha ▸ hp)]
    · rw [List.find?_cons_of_neg _ hp, List.find?_cons_of_neg _ (by rw [← ha]; exact hp),
        ih (fun a ha => h a (by simp [ha]))]

lemma find?_filter' (l : List α) (q p : α → Bool) :
    (l.filter q).find? p = l.find? (fun a => q a && p a) := by
  induction l with
  | nil => rfl
  | cons a as ih =>
    by_cases hq : q a = true
    · rw [List.filter_cons_of_pos hq]
      by_cases hp : p a = true
      · rw [List.find?_cons_of_pos _ hp, List.find?_cons_of_pos _ (by simp [hq, hp])]
      · rw [List.find?_cons_of_neg _ hp, List.find?_cons_of_neg _ (by simp [hq, hp]), ih]
    · rw [List.filter_cons_of_neg hq, List.find?_cons_of_neg _ (by simp [hq]), ih]

lemma find?_dedupFirstAux (l seen : List α) (p : α → Bool)
    (hseen : ∀ a ∈ seen, p a = false) :
    (dedupFirstAux l seen).find? p = l.find? p := by
  induction l generalizing seen with
  | nil => rfl
  | cons a as ih =>
    by_cases ha : a ∈ seen
    · rw [dedupFirstAux, if_pos ha, ih seen hseen,
        List.find?_cons_of_neg _ (by simp [hseen a ha])]
    · rw [dedupFirstAux, if_neg ha]
      by_cases hp : p a = true
      · rw [List.find?_cons_of_pos _ hp, List.find?_cons_of_pos _ hp]
      · rw [List.find?_cons_of_neg _ hp, List.find?_cons_of_neg _ hp]
        exact ih (a :: seen) (fun b hb => by
          rcases List.mem_cons.mp hb with rfl | hb
          · simpa using hp
          · exact hseen b hb)

lemma find?_dedupFirst (l : List α) (p : α → Bool) :
    (dedupFirst l).find? p = l.find? p :=
  find?_dedupFirstAux l [] p (by simp)

end C4Lemmas

lemma le_maxLenOf (l : List (List String)) (c : List String) (h : c ∈ l) :
    c.length ≤ AhoCorasickMatcher.maxLenOf l := by
  induction l with
  | nil => cases h
  | cons a as ih =>
    rcases List.mem_cons.mp h with rfl | h
    · exact le_max_left _ _
    · exact le_trans (ih h) (le_max_right _ _)

lemma maxLenOf_attained (l : List (List String)) (h : l ≠ []) :
    ∃ c ∈ l, c.length = AhoCorasickMatcher.maxLenOf l := by
  induction l with
  | nil => exact absurd rfl h
  | cons a as ih =>
    by_cases has : as = []
    · subst has
      exact ⟨a, by simp, by simp [AhoCorasickMatcher.maxLenOf]⟩
    · obtain ⟨c, hc, hlen⟩ := ih has
      rcases le_total (AhoCorasickMatcher.maxLenOf as) a.length with hle | hle
      · refine ⟨a, by simp, ?_⟩
        show a.length = max a.length (AhoCorasickMatcher.maxLenOf as)
        omega
      · refine ⟨c, by simp [hc], ?_⟩
        show c.length = max a.length (AhoCorasickMatcher.maxLenOf as)
        omega

lemma maxLenOf_eq_of_mem_iff (l₁ l₂ : List (List String))
    (h : ∀ c, c ∈ l₁ ↔ c ∈ l₂) :
    AhoCorasickMatcher.maxLenOf l₁ = AhoCorasickMatcher.maxLenOf l₂ := by
  by_cases h1 : l₁ = []
  · subst h1
    have h2 : l₂ = [] := List.eq_nil_iff_forall_not_mem.mpr (fun c hc => by
      have := (h c).mpr hc; cases this)
    rw [h2]
  · have h2 : l₂ ≠ [] := fun e => by
      obtain ⟨c, hc, _⟩ := maxLenOf_attained l₁ h1
      exact absurd ((h c).mp hc) (by simp [e])
    obtain ⟨c1, hc1, e1⟩ := maxLenOf_attained l₁ h1
    obtain ⟨c2, hc2, e2⟩ := maxLenOf_attained l₂ h2
    have le1 : AhoCorasickMatcher.maxLenOf l₁ ≤ AhoCorasickMatcher.maxLenOf l₂ :=
      e1 ▸ le_maxLenOf l₂ c1 ((h c1).mp hc1)
    have le2 : AhoCorasickMatcher.maxLenOf l₂ ≤ AhoCorasickMatcher.maxLenOf l₁ :=
      e2 ▸ le_maxLenOf l₁ c2 ((h c2).mpr hc2)
    omega

lemma find?_buckets_none (m : List (List String)) (p : List String → Bool)
    (hnil : m.filter p = []) (K : Nat) :
    ((List.range (K+1)).reverse.flatMap
      (fun k => m.filter (fun c => c.length = k))).find? p = none := by
  apply List.find?_eq_none.mpr
  intro x hx hpx
  rw [List.mem_flatMap] at hx
  obtain ⟨k, _, hxk⟩ := hx
  have hxm : x ∈ m := (List.mem_filter.mp hxk).1
  have : x ∈ m.filter p := List.mem_filter.mpr ⟨hxm, hpx⟩
  rw [hnil] at this
  cases this

lemma find?_buckets_some (m : List (List String)) (p : List String → Bool)
    (hne : m.filter p ≠ []) :
    ∀ K, AhoCorasickMatcher.maxLenOf (m.filter p) ≤ K →
    ((List.range (K+1)).reverse.flatMap
        (fun k => m.filter (fun c => c.length = k))).find? p
      = m.find? (fun c => p c
          && c.length = AhoCorasickMatcher.maxLenOf (m.filter p)) := by
  intro K
  induction K with
  | zero =>
    intro hK
    have hL : AhoCorasickMatcher.maxLenOf (m.filter p) = 0 := Nat.le_zero.mp hK
    have h1 : (List.range 1).reverse = [0] := rfl
    rw [h1, List.flatMap_cons, List.flatMap_nil, List.append_nil, find?_filter', hL]
    exact find?_congr' _ _ _ (fun a _ => by rw [Bool.and_comm])
  | succ K ih =>
    intro hK
    have hsplit : (List.range (K+2)).reverse = (K+1) :: (List.range (K+1)).reverse := by
      rw [List.range_succ, List.reverse_append]
      rfl
    rw [hsplit, List.flatMap_cons, List.find?_append]
    by_cases hL : AhoCorasickMatcher.maxLenOf (m.filter p) = K + 1
    · have hhead : (m.filter (fun c => c.length = K+1)).find? p
          = m.find? (fun c => p c
              && c.length = AhoCorasickMatcher.maxLenOf (m.filter p)) := by
        rw [find?_filter', hL]
        exact find?_congr' _ _ _ (fun a _ => by rw [Bool.and_comm])
      obtain ⟨c, hcf, hclen⟩ := maxLenOf_attained _ hne
      have hcm := List.mem_filter.mp hcf
      have hsome : (m.find? (fun c => p c
          && c.length = AhoCorasickMatcher.maxLenOf (m.filter p))).isSome := by
        rw [List.find?_isSome]
        exact ⟨c, hcm.1, by simp [hcm.2, hclen]⟩
      rw [hhead]
      cases hf : m.find? (fun c => p c
          && c.length = AhoCorasickMatcher.maxLenOf (m.filter p)) with
      | some v => rfl
      | none => rw [hf] at hsome; cases hsome
    · have hLlt : AhoCorasickMatcher.maxLenOf (m.filter p) ≤ K := by omega
      have hhead : (m.filter (fun c => c.length = K+1)).find? p = none := by
        apply List.find?_eq_none.mpr
        intro x hx hpx
        have hxf := List.mem_filter.mp hx
        have hle : x.length ≤ K :=
          le_trans (le_maxLenOf _ _ (List.mem_filter.mpr ⟨hxf.1, hpx⟩)) hLlt
        have hxlen : x.length = K + 1 := by simpa using hxf.2
        omega
      rw [hhead]
      exact ih hLlt

lemma find?_sortByLenDesc (m : List (List String)) (p : List String → Bool) :
    (AhoCorasickMatcher.sortByLenDesc m).find? p
      = m.find? (fun c => p c
          && c.length = AhoCorasickMatcher.maxLenOf (m.filter p)) := by
  unfold AhoCorasickMatcher.sortByLenDesc
  by_cases hne : m.filter p = []
  · rw [find?_buckets_none m p hne]
    symm
    apply List.find?_eq_none.mpr
    intro x hx hpx
    have hall := List.filter_eq_nil_iff.mp hne
    have hpx1 : p x = true := by
      have := hpx
      simp only [Bool.and_eq_true] at this
      exact this.1
    exact absurd hpx1 (by simpa using hall x hx)
  · have hLm : AhoCorasickMatcher.maxLenOf (m.filter p)
        ≤ AhoCorasickMatcher.maxLenOf m := by
      obtain ⟨c, hc, e⟩ := maxLenOf_attained _ hne
      exact e ▸ le_maxLenOf m c (List.mem_filter.mp hc).1
    exact find?_buckets_some m p hne (AhoCorasickMatcher.maxLenOf m) hLm

lemma append_sentinel_eq {p s r : List Char} (hp : ';' ∉ p) (hs : ';' ∉ s) :
    p ++ ';' :: r = s ++ [';'] → p = s ∧ r = [] := by
  induction p generalizing s with
  | nil =>
    intro h
    cases s with
    | nil => simpa using h
    | cons b s' =>
      rw [List.nil_append, List.cons_append] at h
      injection h with hb _
      exact absurd (hb ▸ List.mem_cons_self b s') hs
  | cons a p' ih =>
    intro h
    cases s with
    | nil =>
      rw [List.cons_append, List.nil_append] at h
      injection h with _ htl
      exact absurd (List.append_eq_nil.mp htl).2 (by simp)
    | cons b s' =>
      rw [List.cons_append, List.cons_append] at h
      injection h with hab htl
      obtain ⟨h1, h2⟩ := ih (fun hc => hp (by simp [hc])) (fun hc => hs (by simp [hc])) htl
      exact ⟨by rw [hab, h1], h2⟩

/-- The sentinel argument: with `;` occurring in neither string,
`";" + p + ";"` is a substring of `";" + s + ";"` exactly when `p = s`. -/
lemma sentinel_infix_iff {p s : List Char} (hp : ';' ∉ p) (hs : ';' ∉ s) :
    (';' :: p ++ [';']) <:+: (';' :: s ++ [';']) ↔ p = s := by
  constructor
  · rintro ⟨t₁, t₂, ht⟩
    cases t₁ with
    | nil =>
      rw [List.nil_append, List.cons_append, List.cons_append] at ht
      injection ht with _ htl
      rw [List.append_assoc] at htl
      exact (append_sentinel_eq hp hs (by simpa using htl)).1
    | cons c t₁' =>
      rw [List.cons_append, List.cons_append] at ht
      injection ht with hc htl
      exfalso
      have htl' : t₁' ++ (';' :: p ++ [';']) ++ t₂ = s ++ [';'] := htl
      have hcount := congrArg (List.count ';') htl'
      have hp0 : p.count ';' = 0 := List.count_eq_zero.mpr hp
      have hs0 : s.count ';' = 0 := List.count_eq_zero.mpr hs
      have hone : List.count ';' [';'] = 1 := rfl
      have hmid : List.count ';' (';' :: p) = List.count ';' p + 1 := by
        simp [List.count_cons]
      simp only [List.count_append] at hcount
      rw [hmid, hone] at hcount
      omega
  · rintro rfl
    exact List.infix_refl _

/-- `iter_long` finds a hit in the sentinel-delimited needle exactly when the
joined sub-sequence is itself one of the automaton's normalized titles. -/
lemma automatonHits_eq (patterns : List String) (s : String)
    (hp : ∀ t ∈ patterns, ';' ∉ t.data) (hs : ';' ∉ s.data) :
    AhoCorasickMatcher.automatonHits patterns
        (AhoCorasickMatcher.separator :: s.data ++ [AhoCorasickMatcher.separator])
      = patterns.contains s := by
  unfold AhoCorasickMatcher.automatonHits AhoCorasickMatcher.separator
  cases hc : patterns.contains s with
  | false =>
    apply List.any_eq_false.mpr
    intro t htm
    simp only [decide_eq_true_eq]
    intro hinf
    have hts : t.data = s.data := (sentinel_infix_iff (hp t htm) hs).mp hinf
    have heq : t = s := String.ext hts
    subst heq
    have hmem := List.elem_iff.mpr htm
    have hc' : List.elem t patterns = false := hc
    rw [hmem] at hc'
    cases hc'
  | true =>
    apply List.any_eq_true.mpr
    refine ⟨s, List.elem_iff.mp hc, ?_⟩
    simp only [decide_eq_true_eq]
    exact List.infix_refl _

lemma mem_splitWsAux_subset (l : List Char) :
    ∀ acc t, t ∈ splitWsAux l acc → ∀ c ∈ t, c ∈ l ∨ c ∈ acc := by
  induction l with
  | nil =>
    intro acc t htm c hc
    by_cases ha : acc.isEmpty
    · simp [splitWsAux, ha] at htm
    · simp only [splitWsAux, ha, if_false, Bool.false_eq_true] at htm
      rcases List.mem_singleton.mp htm with rfl
      exact Or.inr (List.mem_reverse.mp hc)
  | cons a as ih =>
    intro acc t htm c hc
    by_cases hw : isWs a = true
    · simp only [splitWsAux, hw, if_true] at htm
      by_cases ha : acc.isEmpty
      · rw [if_pos ha] at htm
        rcases ih [] t htm c hc with h | h
        · exact Or.inl (by simp [h])
        · cases h
      · rw [if_neg ha] at htm
        rcases List.mem_cons.mp htm with rfl | htm'
        · exact Or.inr (List.mem_reverse.mp hc)
        · rcases ih [] t htm' c hc with h | h
          · exact Or.inl (by simp [h])
          · cases h
    · simp only [splitWsAux, hw, Bool.false_eq_true, if_false] at htm
      rcases ih (a :: acc) t htm c hc with h | h
      · exact Or.inl (by simp [h])
      · rcases List.mem_cons.mp h with rfl | h'
        · exact Or.inl (by simp)
        · exact Or.inr h'

lemma mem_pySplit_subset (l : List Char) (t : List Char) (htm : t ∈ pySplit l)
    (c : Char) (hc : c ∈ t) : c ∈ l := by
  rcases mem_splitWsAux_subset l [] t htm c hc with h | h
  · exact h
  · cases h

lemma mem_joinL (ts : List (List Char)) (c : Char) (hc : c ∈ joinL ts) :
    c = ' ' ∨ ∃ t ∈ ts, c ∈ t := by
  induction ts with
  | nil => cases hc
  | cons t ts ih =>
    cases ts with
    | nil => exact Or.inr ⟨t, by simp, by simpa [joinL] using hc⟩
    | cons t' ts' =>
      have hc' : c ∈ t ++ ' ' :: joinL (t' :: ts') := hc
      rcases List.mem_append.mp hc' with h | h
      · exact Or.inr ⟨t, by simp, h⟩
      · rcases List.mem_cons.mp h with rfl | h'
        · exact Or.inl rfl
        · rcases ih h' with h'' | ⟨u, hu, hcu⟩
          · exact Or.inl h''
          · exact Or.inr ⟨u, by simp [hu], hcu⟩

lemma combinationsOf_mem_sublist (toks : List String) (cmb : List String)
    (h : cmb ∈ AhoCorasickMatcher.combinationsOf toks) : cmb.Sublist toks := by
  unfold AhoCorasickMatcher.combinationsOf at h
  rw [List.mem_filterMap] at h
  obtain ⟨ij, _, hij⟩ := h
  by_cases hcond : AhoCorasickMatcher.aho_corasick_word_combinations_min_length ≤ ij.2 - ij.1
      ∧ ij.2 - ij.1 ≤ AhoCorasickMatcher.aho_corasick_word_combinations_max_length
  · rw [if_pos hcond] at hij
    injection hij with hij
    rw [← hij]
    exact ((toks.drop ij.1).take_sublist _).trans (toks.drop_sublist _)
  · rw [if_neg hcond] at hij
    cases hij

lemma pyJoin_semifree (cmb : List String) (h : ∀ t ∈ cmb, ';' ∉ t.data) :
    ';' ∉ (pyJoin cmb).data := by
  intro hc
  rcases mem_joinL _ _ hc with he | ⟨t, htm, hct⟩
  · exact absurd he (by decide)
  · rw [List.mem_map] at htm
    obtain ⟨u, hu, rfl⟩ := htm
    exact h u hu hct

/-- C4: the Aho-Corasick matcher coincides with the claim's description —
`Some(s)` iff some contiguous token sub-sequence of the input's first 50
tokens, of length 1..10 and not a blocked single word, is itself a catalog
normalized title, `s` being a maximal-length such sub-sequence with ties
broken by enumeration order, and `None` otherwise.  The hypotheses record
that neither the catalog titles nor the input contain the sentinel `;`
(normalized titles cannot: `;` is replaced by a space). -/
theorem claim_C4 (patterns : List String) (norm_title : String)
    (hp : ∀ t ∈ patterns, ';' ∉ t.data) (ht : ';' ∉ norm_title.data) :
    AhoCorasickMatcher.match' patterns norm_title
      = AhoCorasickMatcher.claim_match patterns norm_title := by
  simp only [AhoCorasickMatcher.match', AhoCorasickMatcher.claim_match]
  have htokfree : ∀ t ∈ (pySplitS norm_title).take
      AhoCorasickMatcher.aho_corasick_role_title_max_words, ';' ∉ t.data := by
    intro t htm hc
    have h1 : t ∈ pySplitS norm_title := List.mem_of_mem_take htm
    rw [pySplitS, List.mem_map] at h1
    obtain ⟨td, htd, rfl⟩ := h1
    exact ht (mem_pySplit_subset _ _ htd _ hc)
  have hcombfree : ∀ cmb ∈ AhoCorasickMatcher.combinationsOf
      ((pySplitS norm_title).take AhoCorasickMatcher.aho_corasick_role_title_max_words),
      ';' ∉ (pyJoin cmb).data := by
    intro cmb hcm
    apply pyJoin_semifree
    intro t htm
    exact htokfree t ((combinationsOf_mem_sublist _ cmb hcm).subset htm)
  rw [find?_congr' _ _ (fun c => patterns.contains (pyJoin c)) (by
    intro c hcmem
    have hcc : c ∈ AhoCorasickMatcher.combinationsOf
        ((pySplitS norm_title).take AhoCorasickMatcher.aho_corasick_role_title_max_words) := by
      unfold AhoCorasickMatcher.sortByLenDesc at hcmem
      rw [List.mem_flatMap] at hcmem
      obtain ⟨k, _, hk⟩ := hcmem
      exact (mem_dedupFirst _ _).mp (List.mem_filter.mp (List.mem_filter.mp hk).1).1
    exact automatonHits_eq patterns (pyJoin c) hp (hcombfree c hcc))]
  rw [find?_sortByLenDesc]
  rw [show AhoCorasickMatcher.maxLenOf
        (((dedupFirst (AhoCorasickMatcher.combinationsOf
            ((pySplitS norm_title).take AhoCorasickMatcher.aho_corasick_role_title_max_words))).filter
          AhoCorasickMatcher.blocklistOk).filter (fun c => patterns.contains (pyJoin c)))
      = AhoCorasickMatcher.maxLenOf
        (((AhoCorasickMatcher.combinationsOf
            ((pySplitS norm_title).take AhoCorasickMatcher.aho_corasick_role_title_max_words)).filter
          AhoCorasickMatcher.blocklistOk).filter (fun c => patterns.contains (pyJoin c)))
    from maxLenOf_eq_of_mem_iff _ _ (by
      intro c
      simp only [List.mem_filter, mem_dedupFirst]
      try tauto)]
  rw [find?_filter', find?_dedupFirst]
  conv_rhs => rw [find?_filter']
  conv_rhs => rw [find?_filter']

/-- Witness for C4 at concrete inputs: catalog titles
`["analista dados", "dados"]`, input `"analista dados financeiro"`; both
sides return the maximal hit `"analista dados"`. -/
theorem claim_C4_witness :
    AhoCorasickMatcher.match' ["analista dados", "dados"] "analista dados financeiro"
      = AhoCorasickMatcher.claim_match ["analista dados", "dados"] "analista dados financeiro"
    ∧ AhoCorasickMatcher.claim_match ["analista dados", "dados"] "analista dados financeiro"
      = some "analista dados" :=
  ⟨claim_C4 ["analista dados", "dados"] "analista dados financeiro"
      (by decide) (by decide),
   by decide⟩

/-! ### C2: the Word2Vec embedding formula -/

open W2vMatcher

/-- A concrete two-word embedding environment with distinct IDF weights. -/
def w2v_env_ab : W2vEnv :=
  { dim := 2
    words_w2v_model := [("a", [1, 0]), ("b", [0, 1])]
    words_idf := [("a", 1), ("b", 3)] }

lemma calculate_embedding_ab : calculate_embedding w2v_env_ab "a b" = some ([1/4, 3/4], 4) := by
  have hs : pySplitS "a b" = ["a", "b"] := by decide
  have hd : dedupFirst ["a", "b"] = ["a", "b"] := by decide
  have hva : alistGet w2v_env_ab.words_w2v_model "a" = some [1, 0] := by decide
  have hvb : alistGet w2v_env_ab.words_w2v_model "b" = some [0, 1] := by decide
  have hia : alistGet w2v_env_ab.words_idf "a" = some 1 := by decide
  have hib : alistGet w2v_env_ab.words_idf "b" = some 3 := by decide
  simp only [calculate_embedding, hs, hd, idfGet, vecGet, hva, hvb, hia, hib,
    List.all_cons, List.all_nil, List.foldl_cons, List.foldl_nil, Option.isSome_some,
    Option.getD_some, Option.map_some,
    if_neg (show ¬("a b" : String) = "" from by decide)]
  norm_num [vadd, vsmul, vdiv, vzero, List.zipWith, List.replicate]

lemma calculate_embedding_a : calculate_embedding w2v_env_ab "a" = some ([1, 0], 1) := by
  have hs : pySplitS "a" = ["a"] := by decide
  have hd : dedupFirst ["a"] = ["a"] := by decide
  have hva : alistGet w2v_env_ab.words_w2v_model "a" = some [1, 0] := by decide
  have hia : alistGet w2v_env_ab.words_idf "a" = some 1 := by decide
  simp only [calculate_embedding, hs, hd, idfGet, vecGet, hva, hia,
    List.all_cons, List.all_nil, List.foldl_cons, List.foldl_nil, Option.isSome_some,
    Option.getD_some, Option.map_some,
    if_neg (show ¬("a" : String) = "" from by decide)]
  norm_num [vadd, vsmul, vdiv, vzero, List.zipWith, List.replicate]

lemma calculate_embedding_b : calculate_embedding w2v_env_ab "b" = some ([0, 1], 3) := by
  have hs : pySplitS "b" = ["b"] := by decide
  have hd : dedupFirst ["b"] = ["b"] := by decide
  have hvb : alistGet w2v_env_ab.words_w2v_model "b" = some [0, 1] := by decide
  have hib : alistGet w2v_env_ab.words_idf "b" = some 3 := by decide
  simp only [calculate_embedding, hs, hd, idfGet, vecGet, hvb, hib,
    List.all_cons, List.all_nil, List.foldl_cons, List.foldl_nil, Option.isSome_some,
    Option.getD_some, Option.map_some,
    if_neg (show ¬("b" : String) = "" from by decide)]
  norm_num [vadd, vsmul, vdiv, vzero, List.zipWith, List.replicate]

lemma combination_embedding_ab :
    combination_embedding w2v_env_ab ["a", "b"] = some [1/4, 1/4] := by
  simp only [combination_embedding, calculate_embedding_a, calculate_embedding_b,
    List.all_cons, List.all_nil, Option.isSome_some, List.foldl_cons, List.foldl_nil,
    Option.map_some, Option.getD_some]
  norm_num [vadd, vsmul, vdiv, vzero, List.zipWith, List.replicate]

/-- C2 fails as stated: with `vec(a) = (1,0), vec(b) = (0,1), idf(a) = 1,
idf(b) = 3`, the embedding `match` computes for the sub-sequence `[a, b]` is
`((1,0) + (0,1)) / (1+3) = (1/4, 1/4)`, while the catalog-title formula gives
`(1·(1,0) + 3·(0,1)) / (1+3) = (1/4, 3/4)`. -/
theorem claim_C2_counterexample :
    combination_embedding w2v_env_ab ["a", "b"]
      ≠ (calculate_embedding w2v_env_ab "a b").map Prod.fst := by
  rw [combination_embedding_ab, calculate_embedding_ab]
  norm_num

lemma length_vsmul (v : Vec) (i : ℚ) : (vsmul v i).length = v.length :=
  List.length_map v _

lemma vadd_vzero (d : Nat) (b : Vec) (h : b.length = d) : vadd (vzero d) b = b := by
  unfold vadd vzero
  induction b generalizing d with
  | nil => cases h; rfl
  | cons x xs ih =>
    cases h
    simp only [List.length_cons, List.replicate_succ, List.zipWith_cons_cons, zero_add]
    rw [ih xs.length rfl]

lemma vdiv_vsmul (v : Vec) (i : ℚ) (h : i ≠ 0) : vdiv (vsmul v i) i = v := by
  unfold vdiv vsmul
  rw [List.map_map]
  conv_rhs => rw [← List.map_id v]
  refine List.map_congr_left (fun x _ => ?_)
  exact mul_div_cancel_right₀ x h

lemma splitWsAux_no_ws (l : List Char) (h : ∀ c ∈ l, isWs c = false) :
    ∀ acc : List Char,
      splitWsAux l acc = if acc.isEmpty && l.isEmpty then [] else [acc.reverse ++ l] := by
  induction l with
  | nil =>
    intro acc
    by_cases ha : acc.isEmpty <;> simp [splitWsAux, ha]
  | cons c cs ih =>
    intro acc
    have hc : isWs c = false := h c (by simp)
    simp only [splitWsAux, hc, Bool.false_eq_true, if_false]
    rw [ih (fun c' hc' => h c' (by simp [hc'])) (c :: acc)]
    simp

lemma pySplitS_single (w : String) (hne : w ≠ "") (hws : ∀ c ∈ w.data, isWs c = false) :
    pySplitS w = [w] := by
  have hd : w.data ≠ [] := fun e => hne (String.ext e)
  unfold pySplitS pySplit
  rw [splitWsAux_no_ws w.data hws []]
  simp [hd]

/-- `_calculate_embedding` on a single known word with non-zero IDF returns
the word's raw vector (the IDF weight cancels) together with its IDF. -/
lemma calculate_embedding_single (e : W2vEnv) (w : String) (v : Vec) (i : ℚ)
    (hne : w ≠ "") (hws : ∀ c ∈ w.data, isWs c = false)
    (hv : alistGet e.words_w2v_model w = some v) (hi : alistGet e.words_idf w = some i)
    (hiz : i ≠ 0) (hlen : v.length = e.dim) :
    calculate_embedding e w = some (v, i) := by
  unfold calculate_embedding
  rw [if_neg hne, pySplitS_single w hne hws]
  have hd : dedupFirst [w] = [w] := by simp [dedupFirst, dedupFirstAux]
  have hidf : idfGet e w = i := by simp [idfGet, hi]
  have hvec : vecGet e w = v := by simp [vecGet, hv]
  simp only [List.all_cons, List.all_nil, hv, hi, Option.isSome_some, Bool.and_true, hd,
    List.foldl_cons, List.foldl_nil, hidf, hvec, zero_add, if_true]
  rw [if_neg hiz]
  rw [vadd_vzero e.dim (vsmul v i) (by rw [length_vsmul, hlen]), vdiv_vsmul v i hiz]

/-- C2, amended: the embedding `match` computes for a contiguous sub-sequence
whose words are all known (with non-zero IDF) is the sum of the words' *raw*
vectors divided by the sum of their IDFs, each occurrence contributing once —
not the catalog-title formula, whose numerator weights each vector by its IDF
and whose denominator sums IDF over distinct tokens only (see the
counterexample). -/
theorem claim_C2 (e : W2vEnv) (comb : List String)
    (h : ∀ w ∈ comb, w ≠ "" ∧ (∀ c ∈ w.data, isWs c = false)
          ∧ ∃ v i, alistGet e.words_w2v_model w = some v ∧ alistGet e.words_idf w = some i
              ∧ i ≠ 0 ∧ v.length = e.dim) :
    combination_embedding e comb
      = if comb.foldl (fun acc w => acc + idfGet e w) 0 = 0 then none
        else some (vdiv (comb.foldl (fun acc w => vadd acc (vecGet e w)) (vzero e.dim))
                    (comb.foldl (fun acc w => acc + idfGet e w) 0)) := by
  have hsingle : ∀ w ∈ comb, calculate_embedding e w = some (vecGet e w, idfGet e w) := by
    intro w hw
    obtain ⟨hne, hws, v, i, hv, hi, hiz, hlen⟩ := h w hw
    have := calculate_embedding_single e w v i hne hws hv hi hiz hlen
    rwa [show vecGet e w = v by simp [vecGet, hv], show idfGet e w = i by simp [idfGet, hi]]
  have hall : comb.all (fun w => (calculate_embedding e w).isSome) = true := by
    rw [List.all_eq_true]
    intro w hw
    rw [hsingle w hw]
    rfl
  have hfold1 : ∀ (l : List String),
      (∀ w ∈ l, calculate_embedding e w = some (vecGet e w, idfGet e w)) →
      ∀ init : Vec,
        l.foldl (fun acc w => vadd acc (((calculate_embedding e w).map (·.1)).getD (vzero e.dim))) init
          = l.foldl (fun acc w => vadd acc (vecGet e w)) init := by
    intro l
    induction l with
    | nil => intro _ _; rfl
    | cons w ws ih =>
      intro hs init
      simp only [List.foldl_cons, hs w (by simp)]
      exact ih (fun w' hw' => hs w' (by simp [hw'])) _
  have hfold2 : ∀ (l : List String),
      (∀ w ∈ l, calculate_embedding e w = some (vecGet e w, idfGet e w)) →
      ∀ init : ℚ,
        l.foldl (fun acc w => acc + (((calculate_embedding e w).map (·.2)).getD 0)) init
          = l.foldl (fun acc w => acc + idfGet e w) init := by
    intro l
    induction l with
    | nil => intro _ _; rfl
    | cons w ws ih =>
      intro hs init
      simp only [List.foldl_cons, hs w (by simp)]
      exact ih (fun w' hw' => hs w' (by simp [hw'])) _
  unfold combination_embedding
  simp only [hall, eq_self_iff_true, if_true, hfold1 comb hsingle, hfold2 comb hsingle]

/-- Witness for C2 at the concrete environment: the sub-sequence `[a, b]`
gets embedding `((1,0) + (0,1)) / 4 = (1/4, 1/4)`. -/
theorem claim_C2_witness :
    combination_embedding w2v_env_ab ["a", "b"] = some [1/4, 1/4] := by
  have h := claim_C2 w2v_env_ab ["a", "b"] (by
    intro w hw
    simp only [List.mem_cons, List.not_mem_nil, or_false] at hw
    rcases hw with rfl | rfl
    · exact ⟨by decide, by decide, [1, 0], 1, by decide, by decide, by decide, by decide⟩
    · exact ⟨by decide, by decide, [0, 1], 3, by decide, by decide, by decide, by decide⟩)
  rw [h]
  have hia : alistGet w2v_env_ab.words_idf "a" = some 1 := by decide
  have hib : alistGet w2v_env_ab.words_idf "b" = some 3 := by decide
  have hva : alistGet w2v_env_ab.words_w2v_model "a" = some [1, 0] := by decide
  have hvb : alistGet w2v_env_ab.words_w2v_model "b" = some [0, 1] := by decide
  simp only [List.foldl_cons, List.foldl_nil, idfGet, vecGet, hia, hib, hva, hvb,
    Option.getD_some]
  norm_num [vadd, vsmul, vdiv, vzero, List.zipWith, List.replicate]

/-! ### C8: idempotence of normalization

The counterexample is the accented input `"ín"`: stopword removal (step 7)
runs *before* accent folding (step 8), so `"ín"` — not a stopword — survives
and folds to `"in"`, which *is* a stopword and is dropped by a second
normalization pass.  The amended theorem establishes idempotence on ASCII
inputs under empty rewrite tables; the proof develops a canonical form for
the normalizer's output (space-joined tokens of clean characters). -/

theorem claim_C8_counterexample :
    ¬ ((RoleNormalizer.normalize env0 { correct_typos := false }
          (.str (RoleNormalizer.normalize env0 { correct_typos := false } (.str "ín")).1)).1
        = (RoleNormalizer.normalize env0 { correct_typos := false } (.str "ín")).1) := by
  decide

lemma toNat_ofNat_of_lt {n : Nat} (h : n < 0xd800) : (Char.ofNat n).toNat = n := by
  have hv : Nat.isValidChar n := Or.inl h
  unfold Char.ofNat
  rw [dif_pos hv]
  rfl

/-- A character that can appear inside a token of the normalizer's canonical
output: ASCII, fixed by lower-casing, not a separator, not a special symbol,
not whitespace. -/
def cleanChar (c : Char) : Prop :=
  c.toNat < 128 ∧ lowerChar c = c
    ∧ c ∉ ([':', ',', ';', '.', '-', '\t'] : List Char)
    ∧ c ∉ RoleNormalizer.special_characters
    ∧ isWs c = false

/-- A token of the canonical output: non-empty, clean characters, not a
stopword. -/
def cleanTok (env : RoleNormalizer.NormEnv) (t : String) : Prop :=
  t.data ≠ [] ∧ (∀ c ∈ t.data, cleanChar c) ∧ (RoleNormalizer.stopwords env).contains t = false

lemma lowerChar_eq_self {c : Char} (h : c.toNat < 128)
    (hu : ¬(65 ≤ c.toNat ∧ c.toNat ≤ 90)) : lowerChar c = c := by
  unfold lowerChar
  rw [if_neg hu, if_pos h]

lemma lowerChar_upper {c : Char} (hu : 65 ≤ c.toNat ∧ c.toNat ≤ 90) :
    lowerChar c = Char.ofNat (c.toNat + 32) := by
  unfold lowerChar
  rw [if_pos hu]

lemma lowerChar_ascii {c : Char} (h : c.toNat < 128) :
    (lowerChar c).toNat < 128 ∧ lowerChar (lowerChar c) = lowerChar c := by
  by_cases hu : 65 ≤ c.toNat ∧ c.toNat ≤ 90
  · rw [lowerChar_upper hu]
    have ht : (Char.ofNat (c.toNat + 32)).toNat = c.toNat + 32 :=
      toNat_ofNat_of_lt (by omega)
    constructor
    · omega
    · exact lowerChar_eq_self (by omega) (by omega)
  · rw [lowerChar_eq_self h hu]
    exact ⟨h, lowerChar_eq_self h hu⟩

lemma replaceFuel_chars (pat rep : List Char) :
    ∀ (fuel : Nat) (l : List Char) (c : Char),
      c ∈ replaceFuel pat rep fuel l → c ∈ l ∨ c ∈ rep := by
  intro fuel
  induction fuel with
  | zero =>
    intro l c hc
    cases l with
    | nil => cases hc
    | cons a as => exact Or.inl hc
  | succ f ih =>
    intro l c hc
    cases l with
    | nil => cases hc
    | cons a as =>
      rw [replaceFuel] at hc
      split at hc
      · rcases List.mem_append.mp hc with h | h
        · exact Or.inr h
        · rcases ih _ _ h with h' | h'
          · exact Or.inl (List.mem_cons_of_mem a ((List.drop_sublist _ _).subset h'))
          · exact Or.inr h'
      · rcases List.mem_cons.mp hc with rfl | h'
        · exact Or.inl (by simp)
        · rcases ih _ _ h' with h'' | h''
          · exact Or.inl (by simp [h''])
          · exact Or.inr h''

lemma replaceL_chars (pat rep l : List Char) (c : Char) (hc : c ∈ replaceL pat rep l) :
    c ∈ l ∨ c ∈ rep :=
  replaceFuel_chars pat rep l.length l c hc

lemma replaceFuel_id_of_head {e : Char} (pat' rep : List Char) :
    ∀ (fuel : Nat) (l : List Char), e ∉ l → replaceFuel (e :: pat') rep fuel l = l := by
  intro fuel
  induction fuel with
  | zero =>
    intro l _
    cases l <;> rfl
  | succ f ih =>
    intro l he
    cases l with
    | nil => rfl
    | cons a as =>
      rw [replaceFuel, if_neg, ih as (fun h => he (by simp [h]))]
      rintro ⟨-, hpre⟩
      have h2 : (e == a && pat'.isPrefixOf as) = true := hpre
      simp only [Bool.and_eq_true, beq_iff_eq] at h2
      exact he (h2.1 ▸ List.mem_cons_self a as)

lemma replaceL_id_of_head {e : Char} (pat' rep : List Char) (l : List Char) (he : e ∉ l) :
    replaceL (e :: pat') rep l = l :=
  replaceFuel_id_of_head pat' rep l.length l he

lemma pyReplace_id_of_head (s : String) (pat rep : String) (e : Char) (pat' : List Char)
    (hpat : pat.data = e :: pat') (he : e ∉ s.data) : pyReplace s pat rep = s := by
  unfold pyReplace
  rw [hpat, replaceL_id_of_head pat' rep.data s.data he]

lemma replaceFuel_single (d : Char) (rep : List Char) :
    ∀ (fuel : Nat) (l : List Char), l.length ≤ fuel →
      replaceFuel [d] rep fuel l = l.flatMap (fun c => if c = d then rep else [c]) := by
  intro fuel
  induction fuel with
  | zero =>
    intro l hl
    rw [Nat.le_zero, List.length_eq_zero] at hl
    subst hl
    rfl
  | succ f ih =>
    intro l hl
    cases l with
    | nil => rfl
    | cons a as =>
      rw [replaceFuel]
      by_cases had : a = d
      · subst had
        rw [if_pos ⟨by simp, by
            show (a == a && List.isPrefixOf [] as) = true
            simp [List.isPrefixOf]⟩]
        simp only [List.length_singleton, Nat.sub_self, List.drop_zero, List.flatMap_cons,
          if_pos rfl]
        rw [ih as (by simpa using hl)]
        simp
      · rw [if_neg (by
            rintro ⟨-, hpre⟩
            have h2 : (d == a && List.isPrefixOf [] as) = true := hpre
            simp only [Bool.and_eq_true, beq_iff_eq] at h2
            exact had h2.1.symm)]
        simp only [List.flatMap_cons, if_neg had]
        rw [ih as (by simpa using hl)]
        rfl

lemma replaceL_single (d : Char) (rep l : List Char) :
    replaceL [d] rep l = l.flatMap (fun c => if c = d then rep else [c]) :=
  replaceFuel_single d rep l.length l (le_refl _)

lemma not_mem_replaceL_single (d : Char) (rep l : List Char) (hd : d ∉ rep) :
    d ∉ replaceL [d] rep l := by
  rw [replaceL_single]
  intro hmem
  rw [List.mem_flatMap] at hmem
  obtain ⟨c, _, hc⟩ := hmem
  by_cases hcd : c = d
  · rw [if_pos hcd] at hc
    exact hd hc
  · rw [if_neg hcd] at hc
    exact hcd ((List.mem_singleton.mp hc).symm)

lemma not_mem_replaceL (d : Char) (pat rep l : List Char) (hl : d ∉ l) (hr : d ∉ rep) :
    d ∉ replaceL pat rep l := fun hmem => by
  rcases replaceL_chars pat rep l d hmem with h | h
  · exact hl h
  · exact hr h

/-- Removing the `--` tag appended to a dash-free token restores the token. -/
lemma replaceL_strip_tag (l : List Char) (hl : '-' ∉ l) :
    replaceL ['-', '-'] [] (l ++ ['-', '-']) = l := by
  have main : ∀ (l : List Char), '-' ∉ l → ∀ fuel, (l ++ ['-', '-']).length ≤ fuel →
      replaceFuel ['-', '-'] [] fuel (l ++ ['-', '-']) = l := by
    intro l
    induction l with
    | nil =>
      intro _ fuel hf
      cases fuel with
      | zero => simp at hf
      | succ f =>
        rw [List.nil_append, replaceFuel, if_pos ⟨by simp, by
          show (('-' == '-') && (List.isPrefixOf ['-'] ['-'])) = true
          simp [List.isPrefixOf]⟩]
        simp [replaceFuel.eq_def]
    | cons a as ih =>
      intro ha fuel hf
      have haa : a ≠ '-' := fun e => ha (by simp [e])
      cases fuel with
      | zero => simp at hf
      | succ f =>
        rw [List.cons_append, replaceFuel, if_neg (by
          rintro ⟨-, hpre⟩
          have h2 : (('-' == a) && List.isPrefixOf ['-'] (as ++ ['-', '-'])) = true := hpre
          simp only [Bool.and_eq_true, beq_iff_eq] at h2
          exact haa h2.1.symm)]
        rw [ih (fun h => ha (by simp [h])) f (by simpa using Nat.le_of_succ_le_succ hf)]
  exact main l hl _ (le_refl _)

lemma collapseSp_chars (l : List Char) (c : Char) (hc : c ∈ collapseSp l) : c ∈ l := by
  induction l with
  | nil => cases hc
  | cons a as ih =>
    cases as with
    | nil => exact hc
    | cons b bs =>
      rw [collapseSp] at hc
      split at hc
      · exact List.mem_cons_of_mem a (ih hc)
      · rcases List.mem_cons.mp hc with rfl | h
        · exact List.mem_cons_self _ _
        · exact List.mem_cons_of_mem a (ih h)

/-- No two adjacent spaces. -/
def noDoubleSp : List Char → Prop
  | [] => True
  | [_] => True
  | a :: b :: cs => ¬(a = ' ' ∧ b = ' ') ∧ noDoubleSp (b :: cs)

lemma collapseSp_id (l : List Char) (h : noDoubleSp l) : collapseSp l = l := by
  induction l with
  | nil => rfl
  | cons a as ih =>
    cases as with
    | nil => rfl
    | cons b bs =>
      obtain ⟨h1, h2⟩ := h
      rw [collapseSp, if_neg h1, ih h2]

lemma dropWhile_eq_self_of_head (l : List Char) (h : ∀ c, l.head? = some c → isWs c = false) :
    l.dropWhile isWs = l := by
  cases l with
  | nil => rfl
  | cons a as =>
    rw [List.dropWhile_cons, if_neg (by simp [h a rfl])]

lemma stripL_eq_self (l : List Char)
    (h1 : ∀ c, l.head? = some c → isWs c = false)
    (h2 : ∀ c, l.getLast? = some c → isWs c = false) :
    stripL l = l := by
  unfold stripL
  rw [dropWhile_eq_self_of_head l h1,
    dropWhile_eq_self_of_head l.reverse (fun c hc => h2 c (by rwa [← List.head?_reverse])),
    List.reverse_reverse]

lemma splitWsAux_tokens (l : List Char) :
    ∀ acc, (∀ c ∈ acc, isWs c = false) →
      ∀ t ∈ splitWsAux l acc, t ≠ [] ∧ ∀ c ∈ t, isWs c = false := by
  induction l with
  | nil =>
    intro acc hacc t htm
    by_cases ha : acc.isEmpty
    · simp [splitWsAux, ha] at htm
    · simp only [splitWsAux, ha, Bool.false_eq_true, if_false] at htm
      rcases List.mem_singleton.mp htm with rfl
      refine ⟨fun e => ha (by simp [List.isEmpty_iff, ← List.reverse_eq_nil_iff, e]), ?_⟩
      intro c hc
      exact hacc c (List.mem_reverse.mp hc)
  | cons a as ih =>
    intro acc hacc t htm
    by_cases hw : isWs a = true
    · simp only [splitWsAux, hw, if_true] at htm
      by_cases ha : acc.isEmpty
      · rw [if_pos ha] at htm
        exact ih [] (by simp) t htm
      · rw [if_neg ha] at htm
        rcases List.mem_cons.mp htm with rfl | htm'
        · refine ⟨fun e => ha (by simp [List.isEmpty_iff, ← List.reverse_eq_nil_iff, e]), ?_⟩
          intro c hc
          exact hacc c (List.mem_reverse.mp hc)
        · exact ih [] (by simp) t htm'
    · simp only [splitWsAux, hw, Bool.false_eq_true, if_false] at htm
      refine ih (a :: acc) ?_ t htm
      intro c hc
      rcases List.mem_cons.mp hc with rfl | hc'
      · simpa using hw
      · exact hacc c hc'

lemma pySplit_tokens (l : List Char) (t : List Char) (ht : t ∈ pySplit l) :
    t ≠ [] ∧ ∀ c ∈ t, isWs c = false :=
  splitWsAux_tokens l [] (by simp) t ht

lemma splitWsAux_token_sp (t : List Char) (ht : ∀ c ∈ t, isWs c = false) :
    ∀ (acc rest : List Char), (acc ≠ [] ∨ t ≠ []) →
      splitWsAux (t ++ ' ' :: rest) acc = (acc.reverse ++ t) :: splitWsAux rest [] := by
  induction t with
  | nil =>
    intro acc rest hne
    have hacc : acc ≠ [] := by
      rcases hne with h | h
      · exact h
      · exact absurd rfl h
    simp only [List.nil_append, splitWsAux, show isWs ' ' = true from rfl, if_true,
      List.append_nil]
    rw [if_neg (by simpa [List.isEmpty_iff] using hacc)]
  | cons a t' ih =>
    intro acc rest _
    have haw : isWs a = false := ht a (by simp)
    simp only [List.cons_append, splitWsAux, haw, Bool.false_eq_true, if_false]
    show splitWsAux (t' ++ ' ' :: rest) (a :: acc) = (acc.reverse ++ a :: t') :: splitWsAux rest []
    rw [ih (fun c hc => ht c (by simp [hc])) (a :: acc) rest (Or.inl (by simp))]
    simp

lemma joinL_ne_nil (t : List Char) (ts : List (List Char)) (ht : t ≠ []) :
    joinL (t :: ts) ≠ [] := by
  cases ts with
  | nil => simpa [joinL]
  | cons t' ts' =>
    show t ++ ' ' :: joinL (t' :: ts') ≠ []
    simp [ht]

lemma pySplit_joinL (tds : List (List Char))
    (h : ∀ t ∈ tds, t ≠ [] ∧ ∀ c ∈ t, isWs c = false) :
    pySplit (joinL tds) = tds := by
  induction tds with
  | nil => rfl
  | cons t ts ih =>
    cases ts with
    | nil =>
      obtain ⟨hne, hws⟩ := h t (by simp)
      show splitWsAux t [] = [t]
      rw [splitWsAux_no_ws t hws []]
      simp [hne]
    | cons t' ts' =>
      obtain ⟨hne, hws⟩ := h t (by simp)
      show splitWsAux (t ++ ' ' :: joinL (t' :: ts')) [] = t :: (t' :: ts')
      rw [splitWsAux_token_sp t hws [] _ (Or.inr hne)]
      simp only [List.reverse_nil, List.nil_append]
      exact congrArg _ (ih (fun u hu => h u (by simp [hu])))

lemma joinL_head_not_ws (tds : List (List Char))
    (h : ∀ t ∈ tds, t ≠ [] ∧ ∀ c ∈ t, isWs c = false) :
    ∀ c, (joinL tds).head? = some c → isWs c = false := by
  intro c hc
  cases tds with
  | nil => cases hc
  | cons t ts =>
    obtain ⟨hne, hws⟩ := h t (by simp)
    have hhd : (joinL (t :: ts)).head? = t.head? := by
      cases ts with
      | nil => rfl
      | cons t' ts' =>
        show (t ++ ' ' :: joinL (t' :: ts')).head? = t.head?
        cases t with
        | nil => exact absurd rfl hne
        | cons a t'' => rfl
    rw [hhd] at hc
    exact hws c (List.mem_of_mem_head? hc)

lemma getLast?_append_right (l₁ l₂ : List Char) (h : l₂ ≠ []) :
    (l₁ ++ l₂).getLast? = l₂.getLast? := by
  induction l₁ with
  | nil => rfl
  | cons a l₁ ih =>
    have hne : l₁ ++ l₂ ≠ [] := by
      intro e
      exact h (List.append_eq_nil.mp e).2
    cases he : l₁ ++ l₂ with
    | nil => exact absurd he hne
    | cons b bs =>
      show (a :: (l₁ ++ l₂)).getLast? = l₂.getLast?
      rw [he, List.getLast?_cons_cons, ← he, ih]

lemma joinL_getLast_not_ws (tds : List (List Char))
    (h : ∀ t ∈ tds, t ≠ [] ∧ ∀ c ∈ t, isWs c = false) :
    ∀ c, (joinL tds).getLast? = some c → isWs c = false := by
  induction tds with
  | nil => intro c hc; cases hc
  | cons t ts ih =>
    intro c hc
    cases ts with
    | nil =>
      exact (h t (by simp)).2 c (List.mem_of_mem_getLast? hc)
    | cons t' ts' =>
      have hlast : (joinL (t :: t' :: ts')).getLast? = (joinL (t' :: ts')).getLast? := by
        show (t ++ ' ' :: joinL (t' :: ts')).getLast? = _
        rw [getLast?_append_right t _ (by simp)]
        have hne' : joinL (t' :: ts') ≠ [] := joinL_ne_nil t' ts' (h t' (by simp)).1
        cases hj : joinL (t' :: ts') with
        | nil => exact absurd hj hne'
        | cons b bs => rw [List.getLast?_cons_cons]
      rw [hlast] at hc
      exact ih (fun u hu => h u (by simp [hu])) c hc

lemma joinL_noDoubleSp (tds : List (List Char))
    (h : ∀ t ∈ tds, t ≠ [] ∧ ∀ c ∈ t, isWs c = false) :
    noDoubleSp (joinL tds) := by
  have key : ∀ (t rest : List Char), (∀ c ∈ t, isWs c = false) →
      noDoubleSp rest →
      noDoubleSp (t ++ rest) := by
    intro t
    induction t with
    | nil => intro rest _ h2; exact h2
    | cons a t' iht =>
      intro rest h1 h2
      have ha : isWs a = false := h1 a (by simp)
      have hrec := iht rest (fun c hc => h1 c (by simp [hc])) h2
      show noDoubleSp (a :: (t' ++ rest))
      cases he : t' ++ rest with
      | nil => trivial
      | cons b bs =>
        refine ⟨?_, he ▸ hrec⟩
        rintro ⟨rfl, -⟩
        simp [isWs, wsChars] at ha
  induction tds with
  | nil => trivial
  | cons t ts ih =>
    cases ts with
    | nil =>
      have hk : noDoubleSp (t ++ []) :=
        key t [] (h t (by simp)).2 trivial
      show noDoubleSp t
      simpa using hk
    | cons t' ts' =>
      show noDoubleSp (t ++ ' ' :: joinL (t' :: ts'))
      apply key t _ (h t (by simp)).2
      show noDoubleSp (' ' :: joinL (t' :: ts'))
      cases hj : joinL (t' :: ts') with
      | nil => trivial
      | cons b bs =>
        refine ⟨?_, hj ▸ ih (fun u hu => h u (by simp [hu]))⟩
        rintro ⟨-, rfl⟩
        have := joinL_head_not_ws (t' :: ts') (fun u hu => h u (by simp [hu])) ' '
          (by rw [hj]; rfl)
        simp [isWs, wsChars] at this

lemma transform_text_id (s : String) (pats : List String) (rep : String)
    (h : ∀ p ∈ pats, ∃ e pat', p.data = e :: pat' ∧ e ∉ s.data) :
    RoleNormalizer.transform_text s pats rep = s := by
  induction pats with
  | nil => rfl
  | cons p ps ih =>
    obtain ⟨e, pat', hp, he⟩ := h p (by simp)
    show RoleNormalizer.transform_text (pyReplace s p rep) ps rep = s
    rw [pyReplace_id_of_head s p rep e pat' hp he]
    exact ih (fun q hq => h q (by simp [hq]))

lemma not_mem_transform_text (d : Char) (s : String) (pats : List String) (rep : String)
    (hs : d ∉ s.data) (hr : d ∉ rep.data) :
    d ∉ (RoleNormalizer.transform_text s pats rep).data := by
  induction pats generalizing s with
  | nil => exact hs
  | cons p ps ih =>
    show d ∉ (RoleNormalizer.transform_text (pyReplace s p rep) ps rep).data
    exact ih (pyReplace s p rep) (not_mem_replaceL d p.data rep.data s.data hs hr)

lemma mem_transform_text (s : String) (pats : List String) (rep : String) (c : Char)
    (hc : c ∈ (RoleNormalizer.transform_text s pats rep).data) :
    c ∈ s.data ∨ c ∈ rep.data := by
  induction pats generalizing s with
  | nil => exact Or.inl hc
  | cons p ps ih =>
    have h1 := ih (pyReplace s p rep) hc
    rcases h1 with h1 | h1
    · exact replaceL_chars p.data rep.data s.data c h1
    · exact Or.inr h1

lemma transform_text_removes (d : Char) (s : String) (pats : List String) (rep : String)
    (hmem : (⟨[d]⟩ : String) ∈ pats) (hr : d ∉ rep.data) :
    d ∉ (RoleNormalizer.transform_text s pats rep).data := by
  induction pats generalizing s with
  | nil => cases hmem
  | cons p ps ih =>
    show d ∉ (RoleNormalizer.transform_text (pyReplace s p rep) ps rep).data
    rcases List.mem_cons.mp hmem with hp | hp
    · apply not_mem_transform_text d _ ps rep _ hr
      show d ∉ replaceL p.data rep.data s.data
      rw [← hp]
      exact not_mem_replaceL_single d rep.data s.data hr
    · exact ih (pyReplace s p rep) hp

lemma flatMap_foldChar_id (l : List Char) (h : ∀ c ∈ l, c.toNat < 128) :
    l.flatMap foldChar = l := by
  induction l with
  | nil => rfl
  | cons a as ih =>
    have ha : foldChar a = [a] := by
      unfold foldChar
      rw [if_pos (h a (by simp))]
    rw [List.flatMap_cons, ha, ih (fun c hc => h c (by simp [hc]))]
    rfl

lemma asciiFoldS_id (s : String) (h : ∀ c ∈ s.data, c.toNat < 128) :
    asciiFoldS s = s := by
  unfold asciiFoldS
  rw [flatMap_foldChar_id s.data h]

lemma mem_stripL_subset (l : List Char) (c : Char) (hc : c ∈ stripL l) : c ∈ l := by
  unfold stripL at hc
  have h1 := (List.dropWhile_sublist isWs).subset (List.mem_reverse.mp hc)
  exact (List.dropWhile_sublist isWs).subset (List.mem_reverse.mp h1)

lemma map_id_of_eq {α : Type} (l : List α) (f : α → α) (h : ∀ a ∈ l, f a = a) :
    l.map f = l := by
  induction l with
  | nil => rfl
  | cons a as ih =>
    rw [List.map_cons, h a (by simp), ih (fun b hb => h b (by simp [hb]))]

lemma pyStrip_tok_id (t : String) (h : ∀ c ∈ t.data, isWs c = false) : pyStrip t = t := by
  unfold pyStrip
  rw [stripL_eq_self t.data
    (fun c hc => h c (List.mem_of_mem_head? hc))
    (fun c hc => h c (List.mem_of_mem_getLast? hc))]

lemma cleanTok_data (env : RoleNormalizer.NormEnv) (ts : List String)
    (h : ∀ t ∈ ts, cleanTok env t) :
    ∀ td ∈ ts.map String.data, td ≠ [] ∧ ∀ c ∈ td, isWs c = false := by
  intro td htd
  obtain ⟨t, ht, rfl⟩ := List.mem_map.mp htd
  obtain ⟨h1, h2, -⟩ := h t ht
  exact ⟨h1, fun c hc => (h2 c hc).2.2.2.2⟩

lemma pyJoin_strip_id (env : RoleNormalizer.NormEnv) (ts : List String)
    (h : ∀ t ∈ ts, cleanTok env t) :
    pyStrip (pyJoin ts) = pyJoin ts := by
  unfold pyStrip pyJoin
  rw [stripL_eq_self _ (joinL_head_not_ws _ (cleanTok_data env ts h))
    (joinL_getLast_not_ws _ (cleanTok_data env ts h))]

lemma mem_pyJoin_clean (env : RoleNormalizer.NormEnv) (ts : List String)
    (h : ∀ t ∈ ts, cleanTok env t)
    (c : Char) (hc : c ∈ (pyJoin ts).data) : c = ' ' ∨ cleanChar c := by
  rcases mem_joinL _ c hc with h1 | ⟨td, htd, hcm⟩
  · exact Or.inl h1
  · obtain ⟨t, ht, rfl⟩ := List.mem_map.mp htd
    exact Or.inr ((h t ht).2.1 c hcm)

lemma not_mem_pyJoin_clean (env : RoleNormalizer.NormEnv) (ts : List String)
    (h : ∀ t ∈ ts, cleanTok env t)
    (d : Char) (hd1 : d ≠ ' ') (hd2 : ¬ cleanChar d) : d ∉ (pyJoin ts).data := fun hm => by
  rcases mem_pyJoin_clean env ts h d hm with h1 | h1
  · exact hd1 h1
  · exact hd2 h1

lemma pySplitS_pyJoin (env : RoleNormalizer.NormEnv) (ts : List String)
    (h : ∀ t ∈ ts, cleanTok env t) :
    pySplitS (pyJoin ts) = ts := by
  show (pySplit (joinL (ts.map String.data))).map (fun t => ⟨t⟩) = ts
  rw [pySplit_joinL _ (cleanTok_data env ts h), List.map_map]
  exact map_id_of_eq ts _ (fun t _ => rfl)

/-- The canonical output (a single-space join of clean tokens) is a fixed
point of steps 1-8 when the special-character-term table is empty and typo
correction is off. -/
lemma accent_stage_id (env : RoleNormalizer.NormEnv) (opts : RoleNormalizer.NormOpts)
    (ts : List String)
    (hspec : env.special_character_regexes = [])
    (hct : opts.correct_typos = false)
    (h : ∀ t ∈ ts, cleanTok env t) :
    RoleNormalizer.accent_stage env opts (pyJoin ts) = pyJoin ts := by
  have hmem := mem_pyJoin_clean env ts h
  have hnm := not_mem_pyJoin_clean env ts h
  have h1 : pyLower (pyJoin ts) = pyJoin ts := by
    unfold pyLower
    refine congrArg _ (map_id_of_eq _ _ ?_)
    intro c hc
    rcases hmem c hc with rfl | hcl
    · decide
    · exact hcl.2.1
  have h2 : RoleNormalizer.transform_text (pyJoin ts)
      RoleNormalizer.line_break_characters " " = pyJoin ts := by
    apply transform_text_id
    intro p hp
    simp only [RoleNormalizer.line_break_characters, List.mem_cons,
      List.mem_singleton, List.not_mem_nil, or_false] at hp
    rcases hp with rfl | rfl | rfl | rfl
    · exact ⟨'\r', [], rfl, hnm '\r' (by decide)
        (fun hcl => absurd hcl.2.2.2.2 (by decide))⟩
    · exact ⟨'\n', [], rfl, hnm '\n' (by decide)
        (fun hcl => absurd hcl.2.2.2.2 (by decide))⟩
    · exact ⟨'\\', ['r'], rfl, hnm '\\' (by decide)
        (fun hcl => hcl.2.2.2.1 (by decide))⟩
    · exact ⟨'\\', ['n'], rfl, hnm '\\' (by decide)
        (fun hcl => hcl.2.2.2.1 (by decide))⟩
  have h6 : pyStrip (pyJoin ts) = pyJoin ts := pyJoin_strip_id env ts h
  have h3 : RoleNormalizer.normalize_by_mapping (pyJoin ts)
      env.special_character_regexes = pyJoin ts := by
    rw [hspec]
    unfold RoleNormalizer.normalize_by_mapping
    rw [List.foldl_nil, h6, h6]
  have h4 : RoleNormalizer.transform_text (pyJoin ts)
      RoleNormalizer.space_characters " " = pyJoin ts := by
    apply transform_text_id
    intro p hp
    simp only [RoleNormalizer.space_characters, List.mem_cons,
      List.mem_singleton, List.not_mem_nil, or_false] at hp
    rcases hp with rfl | rfl | rfl | rfl | rfl | rfl | rfl | rfl
    · exact ⟨':', [], rfl, hnm ':' (by decide) (fun hcl => hcl.2.2.1 (by decide))⟩
    · exact ⟨',', [], rfl, hnm ',' (by decide) (fun hcl => hcl.2.2.1 (by decide))⟩
    · exact ⟨';', [], rfl, hnm ';' (by decide) (fun hcl => hcl.2.2.1 (by decide))⟩
    · exact ⟨'.', [], rfl, hnm '.' (by decide) (fun hcl => hcl.2.2.1 (by decide))⟩
    · exact ⟨'-', [], rfl, hnm '-' (by decide) (fun hcl => hcl.2.2.1 (by decide))⟩
    · exact ⟨'–', [], rfl, hnm '–' (by decide) (fun hcl => absurd hcl.1 (by decide))⟩
    · exact ⟨'\t', [], rfl, hnm '\t' (by decide)
        (fun hcl => absurd hcl.2.2.2.2 (by decide))⟩
    · exact ⟨'\\', ['t'], rfl, hnm '\\' (by decide)
        (fun hcl => hcl.2.2.2.1 (by decide))⟩
  have h5 : collapseSpS (pyJoin ts) = pyJoin ts := by
    show (⟨collapseSp (joinL (ts.map String.data))⟩ : String) = pyJoin ts
    rw [collapseSp_id _ (joinL_noDoubleSp _ (cleanTok_data env ts h))]
    rfl
  have h7 : RoleNormalizer.transform_text (pyJoin ts)
      (RoleNormalizer.special_characters.map String.singleton) "" = pyJoin ts := by
    apply transform_text_id
    intro p hp
    obtain ⟨d, hd, rfl⟩ := List.mem_map.mp hp
    refine ⟨d, [], rfl, hnm d ?_ (fun hcl => hcl.2.2.2.1 hd)⟩
    rintro rfl
    revert hd
    decide
  have h8 : pySplitS (pyJoin ts) = ts := pySplitS_pyJoin env ts h
  have h9 : ts.filter (fun tok => !(RoleNormalizer.stopwords env).contains tok) = ts :=
    List.filter_eq_self.mpr (fun t ht => by rw [(h t ht).2.2]; rfl)
  have h10 : asciiFoldS (pyJoin ts) = pyJoin ts := by
    apply asciiFoldS_id
    intro c hc
    rcases hmem c hc with rfl | hcl
    · decide
    · exact hcl.1
  unfold RoleNormalizer.accent_stage
  simp only [h1, h2, h3, ite_self, h4, h5, h6, h7, hct, Bool.false_eq_true,
    if_false, h8, h9, h10]

/-- The canonical output is a fixed point of steps 9-16 when the
conjugation, plural, gender and thesaurus tables are empty and location
removal and stemming are off (their defaults). -/
lemma tail_stage_id (env : RoleNormalizer.NormEnv) (opts : RoleNormalizer.NormOpts)
    (ts : List String)
    (hconj : env.conjugation_mapping = [])
    (hplural : env.plural_suffix_rules = [])
    (hgender : env.gender_regexes = [])
    (hthes : env.thesaurus_regexes = [])
    (hloc : opts.remove_locations = false)
    (hstem : opts.stemming = false)
    (h : ∀ t ∈ ts, cleanTok env t) :
    RoleNormalizer.tail_stage env opts (pyJoin ts) = pyJoin ts := by
  have h6 : pyStrip (pyJoin ts) = pyJoin ts := pyJoin_strip_id env ts h
  have h8 : pySplitS (pyJoin ts) = ts := pySplitS_pyJoin env ts h
  have h12 : RoleNormalizer.normalize_by_replace (pyJoin ts)
      env.conjugation_mapping = pyJoin ts := by
    rw [hconj]
    unfold RoleNormalizer.normalize_by_replace
    rw [h6, h8, map_id_of_eq ts
      (fun w => (alistGet ([] : List (String × String)) w).getD w) (fun w _ => rfl), h6]
  have htokid : ∀ t ∈ ts, RoleNormalizer.normalize_by_mapping t
      (RoleNormalizer.plural_regexes env) = t := by
    intro t ht
    obtain ⟨hne, hcl, -⟩ := h t ht
    have hws : ∀ c ∈ t.data, isWs c = false := fun c hc => (hcl c hc).2.2.2.2
    have hdash : '-' ∉ t.data := fun hd => (hcl '-' hd).2.2.1 (by decide)
    have hst : pyStrip t = t := pyStrip_tok_id t hws
    have hg : pyReplace t "--" "" = t :=
      pyReplace_id_of_head t "--" "" '-' ['-'] rfl hdash
    unfold RoleNormalizer.plural_regexes
    rw [hplural]
    unfold RoleNormalizer.normalize_by_mapping
    rw [hst]
    simp only [List.map_nil, List.append_nil, List.nil_append, List.cons_append,
      List.foldl_cons, List.foldl_nil]
    by_cases hskip : RoleNormalizer.plural_skip_tokens.contains t
    · rw [if_pos hskip]
      have htag : pyReplace (t ++ "--") "--" "" = t := by
        unfold pyReplace
        rw [String.data_append]
        show (⟨replaceL ['-', '-'] [] (t.data ++ ['-', '-'])⟩ : String) = t
        rw [replaceL_strip_tag t.data hdash]
      rw [htag, hst]
    · rw [if_neg hskip, hg, hst]
  have h13 : pyStrip (pyJoin (ts.map (fun tok =>
      RoleNormalizer.normalize_by_mapping tok (RoleNormalizer.plural_regexes env))))
      = pyJoin ts := by
    rw [map_id_of_eq ts _ htokid, h6]
  have h14 : RoleNormalizer.normalize_by_mapping (pyJoin ts)
      env.gender_regexes = pyJoin ts := by
    rw [hgender]
    unfold RoleNormalizer.normalize_by_mapping
    rw [List.foldl_nil, h6, h6]
  have h15 : RoleNormalizer.normalize_by_mapping (pyJoin ts)
      env.thesaurus_regexes = pyJoin ts := by
    rw [hthes]
    unfold RoleNormalizer.normalize_by_mapping
    rw [List.foldl_nil, h6, h6]
  unfold RoleNormalizer.tail_stage
  simp only [hloc, hstem, Bool.false_eq_true, if_false, h12, ite_self, h8, h13,
    h14, h15]

/-- On all-ASCII input (empty special-character-term table, typo correction
off), steps 1-8 produce a single-space join of clean tokens. -/
lemma accent_stage_canonical (env : RoleNormalizer.NormEnv)
    (opts : RoleNormalizer.NormOpts) (s : String)
    (hspec : env.special_character_regexes = [])
    (hct : opts.correct_typos = false)
    (hascii : ∀ c ∈ s.data, c.toNat < 128) :
    ∃ ts : List String, RoleNormalizer.accent_stage env opts s = pyJoin ts
      ∧ ∀ t ∈ ts, cleanTok env t := by
  obtain ⟨t1, ht1⟩ : ∃ x, x = pyLower s := ⟨_, rfl⟩
  obtain ⟨t2, ht2⟩ : ∃ x, x = RoleNormalizer.transform_text t1
    RoleNormalizer.line_break_characters " " := ⟨_, rfl⟩
  obtain ⟨t3, ht3⟩ : ∃ x, x = if opts.normalize_special_character_terms
      then RoleNormalizer.normalize_by_mapping t2 env.special_character_regexes
      else t2 := ⟨_, rfl⟩
  obtain ⟨t4, ht4⟩ : ∃ x, x = RoleNormalizer.transform_text t3
    RoleNormalizer.space_characters " " := ⟨_, rfl⟩
  obtain ⟨t5, ht5⟩ : ∃ x, x = collapseSpS t4 := ⟨_, rfl⟩
  obtain ⟨t6, ht6⟩ : ∃ x, x = pyStrip t5 := ⟨_, rfl⟩
  obtain ⟨t7, ht7⟩ : ∃ x, x = RoleNormalizer.transform_text t6
    (RoleNormalizer.special_characters.map String.singleton) "" := ⟨_, rfl⟩
  obtain ⟨tokens, htk⟩ : ∃ x, x = (pySplitS t7).filter
    (fun tok => !(RoleNormalizer.stopwords env).contains tok) := ⟨_, rfl⟩
  have hA1 : ∀ c ∈ t1.data, c.toNat < 128 ∧ lowerChar c = c := by
    intro c hc
    rw [ht1] at hc
    have hc' : c ∈ s.data.map lowerChar := hc
    obtain ⟨c₀, hc₀, rfl⟩ := List.mem_map.mp hc'
    exact lowerChar_ascii (hascii c₀ hc₀)
  have hA2 : ∀ c ∈ t2.data, c.toNat < 128 ∧ lowerChar c = c := by
    intro c hc
    rw [ht2] at hc
    rcases mem_transform_text t1 _ " " c hc with h | h
    · exact hA1 c h
    · have h' : c ∈ ([' '] : List Char) := h
      rcases List.mem_singleton.mp h' with rfl
      exact ⟨by decide, by decide⟩
  have hsub3 : ∀ c ∈ t3.data, c ∈ t2.data := by
    intro c hc
    rw [ht3] at hc
    by_cases hf : opts.normalize_special_character_terms
    · rw [if_pos hf, hspec] at hc
      have heq : RoleNormalizer.normalize_by_mapping t2 [] = pyStrip (pyStrip t2) := by
        unfold RoleNormalizer.normalize_by_mapping
        rw [List.foldl_nil]
      rw [heq] at hc
      have hc' : c ∈ stripL (stripL t2.data) := hc
      exact mem_stripL_subset _ c (mem_stripL_subset _ c hc')
    · rw [if_neg hf] at hc
      exact hc
  have hA3 : ∀ c ∈ t3.data, c.toNat < 128 ∧ lowerChar c = c :=
    fun c hc => hA2 c (hsub3 c hc)
  have hA4 : ∀ c ∈ t4.data, c.toNat < 128 ∧ lowerChar c = c := by
    intro c hc
    rw [ht4] at hc
    rcases mem_transform_text t3 _ " " c hc with h | h
    · exact hA3 c h
    · have h' : c ∈ ([' '] : List Char) := h
      rcases List.mem_singleton.mp h' with rfl
      exact ⟨by decide, by decide⟩
  have hsub5 : ∀ c ∈ t5.data, c ∈ t4.data := by
    intro c hc
    rw [ht5] at hc
    have hc' : c ∈ collapseSp t4.data := hc
    exact collapseSp_chars t4.data c hc'
  have hsub6 : ∀ c ∈ t6.data, c ∈ t5.data := by
    intro c hc
    rw [ht6] at hc
    have hc' : c ∈ stripL t5.data := hc
    exact mem_stripL_subset t5.data c hc'
  have hA7 : ∀ c ∈ t7.data, c.toNat < 128 ∧ lowerChar c = c := by
    intro c hc
    rw [ht7] at hc
    rcases mem_transform_text t6 _ "" c hc with h | h
    · exact hA4 c (hsub5 c (hsub6 c h))
    · exact absurd (show c ∈ ([] : List Char) from h) (List.not_mem_nil c)
  have hB4 : ∀ d ∈ ([':', ',', ';', '.', '-'] : List Char), d ∉ t4.data := by
    intro d hd
    rw [ht4]
    fin_cases hd
    · exact transform_text_removes ':' t3 _ " " (by decide) (by decide)
    · exact transform_text_removes ',' t3 _ " " (by decide) (by decide)
    · exact transform_text_removes ';' t3 _ " " (by decide) (by decide)
    · exact transform_text_removes '.' t3 _ " " (by decide) (by decide)
    · exact transform_text_removes '-' t3 _ " " (by decide) (by decide)
  have hB7 : ∀ d ∈ ([':', ',', ';', '.', '-'] : List Char), d ∉ t7.data := by
    intro d hd hc
    refine hB4 d hd ?_
    apply hsub5
    apply hsub6
    rw [ht7] at hc
    rcases mem_transform_text t6 _ "" d hc with h | h
    · exact h
    · exact absurd (show d ∈ ([] : List Char) from h) (List.not_mem_nil d)
  have hC7 : ∀ d ∈ RoleNormalizer.special_characters, d ∉ t7.data := by
    intro d hd
    rw [ht7]
    exact transform_text_removes d t6 _ ""
      (List.mem_map.mpr ⟨d, hd, rfl⟩)
      (fun h => (List.not_mem_nil d) h)
  have hclean : ∀ t ∈ tokens, cleanTok env t := by
    intro t ht
    rw [htk] at ht
    obtain ⟨htm, hflt⟩ := List.mem_filter.mp ht
    have htm' : t ∈ (pySplit t7.data).map (fun l => (⟨l⟩ : String)) := htm
    obtain ⟨td, htd, rfl⟩ := List.mem_map.mp htm'
    obtain ⟨hne, hws⟩ := pySplit_tokens t7.data td htd
    refine ⟨hne, ?_, by simpa using hflt⟩
    intro c hc
    have hct7 : c ∈ t7.data := mem_pySplit_subset t7.data td htd c hc
    obtain ⟨hascii7, hlow7⟩ := hA7 c hct7
    refine ⟨hascii7, hlow7, ?_, fun hsp => hC7 c hsp hct7, hws c hc⟩
    intro hc6
    have hwsc := hws c hc
    fin_cases hc6
    · exact hB7 ':' (by decide) hct7
    · exact hB7 ',' (by decide) hct7
    · exact hB7 ';' (by decide) hct7
    · exact hB7 '.' (by decide) hct7
    · exact hB7 '-' (by decide) hct7
    · exact absurd hwsc (by decide)
  refine ⟨tokens, ?_, hclean⟩
  have hjoin_ascii : ∀ c ∈ (pyJoin tokens).data, c.toNat < 128 := by
    intro c hc
    rcases mem_pyJoin_clean env tokens hclean c hc with rfl | hcl
    · decide
    · exact hcl.1
  unfold RoleNormalizer.accent_stage
  simp only [hct, Bool.false_eq_true, if_false]
  rw [← ht1, ← ht2, ← ht3, ← ht4, ← ht5, ← ht6, ← ht7, ← htk]
  exact asciiFoldS_id _ hjoin_ascii

/-- Witness for C6 at a concrete input: the exact stage matches `role_x`
(`perfil_ids = [5, 6]`), the filter `[5]` intersects it, and the returned role
has its id lists intersected with profile 5's mapped ids; the membership
characterization is exercised at id 100. -/
theorem claim_C6_witness :
    normalize_and_match env0 mainMap_x [] pm_x false (fun _ => none) false (fun _ => none)
        (.str "x") [5]
      = some ("x", some (ProcessedRole.filter_by_perfil_ids pm_x role_x [5]), some "database")
    ∧ (100 ∈ (ProcessedRole.filter_by_perfil_ids pm_x role_x [5]).areap_ids
        ↔ 100 ∈ role_x.areap_ids
          ∧ ∃ p ∈ ([5] : List Int), ∃ e, alistGet pm_x p = some e ∧ 100 ∈ e.areap_ids) := by
  have h := claim_C6 env0 mainMap_x [] pm_x false false (fun _ => none) (fun _ => none)
    (.str "x") [5] (by decide) "x" role_x "database" (by decide)
  exact ⟨h.2.1 (by decide), (h.2.2 100).1⟩

/-- Witness for C10: a concrete run in which the Aho-Corasick stage resolves
to a role disjoint from the filter and the enabled Word2Vec matcher — which
would have returned the intersecting role `"x"` — is never consulted. -/
theorem claim_C10_witness :
    normalize_and_match env0 mainMap_x [] pm_x true (fun _ => some "x") true (fun _ => some "x")
      (.str "zz") [9]
      = some ("zz", none, none) := by
  have h := claim_C10 env0 mainMap_x [] pm_x (fun _ => some "x") (.str "zz") [9] "x" role_x
    (by decide) (by decide) (by decide) (by decide) (by decide) (by decide)
    true (fun _ => some "x")
  have hn : (RoleNormalizer.normalize env0 {} (.str "zz")).1 = "zz" := by decide
  rw [hn] at h
  exact h

/-- C8 (amended): the claim as stated fails (see `claim_C8_counterexample`:
stopwords are removed before accent folding, so `"ín"` normalizes to `"in"`,
which the second pass removes as a stopword).  Amended: with the
gazetteer-loaded rewrite tables empty (special-character terms, conjugation,
plural suffixes, gender, thesaurus — their contents are data files outside the
source tree) and all-ASCII input, `normalize` with `correct_typos = false`
(and the other options at their defaults) is idempotent on its text output:
normalizing the normalized text again returns that text unchanged. -/
theorem claim_C8 (env : RoleNormalizer.NormEnv)
    (hspec : env.special_character_regexes = [])
    (hconj : env.conjugation_mapping = [])
    (hplural : env.plural_suffix_rules = [])
    (hgender : env.gender_regexes = [])
    (hthes : env.thesaurus_regexes = [])
    (s : String) (hascii : ∀ c ∈ s.data, c.toNat < 128) :
    (RoleNormalizer.normalize env { correct_typos := false }
        (.str (RoleNormalizer.normalize env { correct_typos := false } (.str s)).1)).1
      = (RoleNormalizer.normalize env { correct_typos := false } (.str s)).1 := by
  by_cases hs : s = ""
  · subst hs
    rfl
  · obtain ⟨ts, hcan, hclean⟩ :=
      accent_stage_canonical env { correct_typos := false } s hspec rfl hascii
    have h1 : (RoleNormalizer.normalize env { correct_typos := false } (.str s)).1
        = pyJoin ts := by
      simp only [RoleNormalizer.normalize]
      rw [if_neg hs]
      show RoleNormalizer.tail_stage env { correct_typos := false }
        (RoleNormalizer.accent_stage env { correct_typos := false } s) = pyJoin ts
      rw [hcan]
      exact tail_stage_id env { correct_typos := false } ts hconj hplural hgender hthes
        rfl rfl hclean
    by_cases hj : pyJoin ts = ""
    · rw [h1, hj]
      rfl
    · rw [h1]
      simp only [RoleNormalizer.normalize]
      rw [if_neg hj]
      show RoleNormalizer.tail_stage env { correct_typos := false }
        (RoleNormalizer.accent_stage env { correct_typos := false } (pyJoin ts)) = pyJoin ts
      rw [accent_stage_id env { correct_typos := false } ts hspec rfl hclean]
      exact tail_stage_id env { correct_typos := false } ts hconj hplural hgender hthes
        rfl rfl hclean

/-- Witness for C8: with the empty engine tables, normalizing
`"analista de sistemas"` twice returns the once-normalized text unchanged. -/
theorem claim_C8_witness :
    (∀ c ∈ ("analista de sistemas" : String).data, c.toNat < 128) ∧
    (RoleNormalizer.normalize env0 { correct_typos := false }
        (.str (RoleNormalizer.normalize env0 { correct_typos := false }
          (.str "analista de sistemas")).1)).1
      = (RoleNormalizer.normalize env0 { correct_typos := false }
          (.str "analista de sistemas")).1 :=
  ⟨by decide, claim_C8 env0 rfl rfl rfl rfl rfl "analista de sistemas" (by decide)⟩

end RoleNorm
